import Mathlib

/-!
# Vaultic core: a shallow embedding in Lean 4

This file embeds the core data model and operations of the `vaultic`
secret-management tool (a Rust CLI) and proves, or refutes, the frozen
specification claims about them.

Embedded components:

* the dotenv parser/serializer (`src/adapters/parsers/dotenv_parser.rs`),
* the `SecretFile` model (`src/core/models/secret_file.rs`),
* the environment resolver: chain building and overlay merge
  (`src/core/services/env_resolver.rs`),
* the check and diff services (`src/core/services/check_service.rs`,
  `src/core/services/diff_service.rs`),
* the file-backed key store (`src/adapters/key_stores/file_key_store.rs`),
* the JSON-lines audit logger (`src/adapters/audit/json_audit_logger.rs`),
* the update verifier with a full executable SHA-256
  (`src/adapters/updater/verifier.rs`).

Strings are modelled as Lean `String`s; the character-level algorithms
(trimming, splitting) mirror the corresponding Rust `str` methods on the
underlying `List Char`.  Filesystem state is made explicit: a file is an
`Option String` (`none` = absent), and each filesystem-touching operation
maps an explicit state to a result and a new state.
-/

set_option maxHeartbeats 1000000

namespace Vaultic

/-! ## Character-level helpers mirroring Rust `str` methods -/

/-- Rust `char::is_whitespace`: the Unicode `White_Space` property. -/
def rustWS (c : Char) : Bool :=
  let n := c.toNat
  (9 ≤ n && n ≤ 13) || n == 0x20 || n == 0x85 || n == 0xA0 || n == 0x1680 ||
  (0x2000 ≤ n && n ≤ 0x200A) || n == 0x2028 || n == 0x2029 || n == 0x202F ||
  n == 0x205F || n == 0x3000

/-- Rust `str::trim_start` on the character list. -/
def trimStart (l : List Char) : List Char := l.dropWhile rustWS

/-- Rust `str::trim_end` on the character list. -/
def trimEnd (l : List Char) : List Char := (l.reverse.dropWhile rustWS).reverse

/-- Rust `str::trim` on the character list (trimming is end-symmetric, so
the two compositions of `trimStart` and `trimEnd` agree; we fix one). -/
def trimChars (l : List Char) : List Char := trimStart (trimEnd l)

/-- Split at the first occurrence of character `c`: Rust's
`find` + slicing (`split_once`).  Returns the parts before and after the
first `c`, or `none` when `c` does not occur. -/
def splitFirst (c : Char) : List Char → Option (List Char × List Char)
  | [] => none
  | a :: rest =>
    if a = c then some ([], rest)
    else (splitFirst c rest).map (fun p => (a :: p.1, p.2))

/-- Split a character list at every `'\n'`; the raw pieces, including a
trailing empty piece when the list ends with `'\n'`.  (`List.splitOn`
restricted to a single character, written recursively so it is easy to
reason about.) -/
def splitNl : List Char → List (List Char)
  | [] => [[]]
  | c :: rest =>
    if c = '\n' then [] :: splitNl rest
    else
      match splitNl rest with
      | [] => [[c]]
      | p :: ps => (c :: p) :: ps

/-- Join character lists with `'\n'` between them. -/
def joinNl : List (List Char) → List Char
  | [] => []
  | [l] => l
  | l :: rest => l ++ '\n' :: joinNl rest

/-- Strip one trailing `'\r'`, as Rust's `lines()` does on lines that were
terminated by `"\r\n"`. -/
def stripCR (l : List Char) : List Char :=
  if l.getLast? = some '\r' then l.dropLast else l

/-- Rust `str::lines` on the character list: split at `'\n'`, drop the
trailing empty piece produced by a final line terminator, and strip the
`'\r'` of a `"\r\n"` terminator.  The final piece is not `'\r'`-stripped
because it was not terminated by `"\n"`. -/
def rustLinesData (l : List Char) : List (List Char) :=
  let parts := splitNl l
  let body := parts.dropLast.map stripCR
  match parts.getLast? with
  | some [] => body
  | some last => body ++ [last]
  | none => body

/-- Rust `str::lines` at the `String` level. -/
def rustLines (s : String) : List String :=
  (rustLinesData s.data).map (fun l => ⟨l⟩)

/-! ### Basic lemmas about the helpers -/

theorem length_dropWhile_le (p : Char → Bool) (l : List Char) :
    (l.dropWhile p).length ≤ l.length := by
  induction l with
  | nil => simp [List.dropWhile]
  | cons a t ih =>
    by_cases h : p a
    · simp only [List.dropWhile, h]
      exact Nat.le_succ_of_le ih
    · simp [List.dropWhile, h]

theorem dropWhile_eq_self_of_head (p : Char → Bool) (l : List Char)
    (h : ∀ ch, l.head? = some ch → p ch = false) : l.dropWhile p = l := by
  cases l with
  | nil => rfl
  | cons a t =>
    have := h a rfl
    simp [List.dropWhile, this]

/-- If the head satisfies `p`, `dropWhile` strictly shrinks the list. -/
theorem length_dropWhile_lt_of_head (p : Char → Bool) (a : Char) (t : List Char)
    (h : p a = true) : ((a :: t).dropWhile p).length < (a :: t).length := by
  simp only [List.dropWhile, h]
  exact Nat.lt_succ_of_le (length_dropWhile_le p t)

theorem trimStart_length_le (l : List Char) : (trimStart l).length ≤ l.length :=
  length_dropWhile_le _ l

theorem trimEnd_length_le (l : List Char) : (trimEnd l).length ≤ l.length := by
  unfold trimEnd
  simpa using length_dropWhile_le rustWS l.reverse

/-- Elements of `trimStart l` come from `l`. -/
theorem mem_of_mem_trimStart {c : Char} {l : List Char} (h : c ∈ trimStart l) :
    c ∈ l := by
  have := List.takeWhile_append_dropWhile rustWS l
  rw [← this]
  exact List.mem_append_right _ h

/-- Elements of `trimEnd l` come from `l`. -/
theorem mem_of_mem_trimEnd {c : Char} {l : List Char} (h : c ∈ trimEnd l) :
    c ∈ l := by
  unfold trimEnd at h
  rw [List.mem_reverse] at h
  simpa using @mem_of_mem_trimStart c l.reverse (by simpa [trimStart] using h)

/-- Elements of `trimChars l` come from `l`. -/
theorem mem_of_mem_trimChars {c : Char} {l : List Char} (h : c ∈ trimChars l) :
    c ∈ l :=
  mem_of_mem_trimEnd (mem_of_mem_trimStart h)

/-- The head of a `dropWhile rustWS` result never satisfies `rustWS`. -/
theorem head_dropWhile_not (l : List Char) :
    ∀ ch, (l.dropWhile rustWS).head? = some ch → rustWS ch = false := by
  induction l with
  | nil => intro ch h; simp [List.dropWhile] at h
  | cons a t ih =>
    intro ch h
    by_cases ha : rustWS a
    · simp only [List.dropWhile, ha] at h
      exact ih ch h
    · simp only [List.dropWhile, ha] at h
      simp only [List.head?] at h
      cases h
      simpa using ha

/-- "The head, if any, is not whitespace." -/
def headOK (l : List Char) : Prop := ∀ ch, l.head? = some ch → rustWS ch = false

/-- "The last character, if any, is not whitespace." -/
def lastOK (l : List Char) : Prop := ∀ ch, l.getLast? = some ch → rustWS ch = false

theorem trimEnd_lastOK (l : List Char) : lastOK (trimEnd l) := by
  intro ch h
  unfold trimEnd at h
  rw [List.getLast?_reverse] at h
  exact head_dropWhile_not _ ch h

theorem trimChars_headOK (l : List Char) : headOK (trimChars l) := by
  intro ch h
  exact head_dropWhile_not _ ch h

theorem trimChars_lastOK (l : List Char) : lastOK (trimChars l) := by
  intro ch h
  unfold trimChars trimStart at h
  have hne : (trimEnd l).dropWhile rustWS ≠ [] := by
    intro hnil
    rw [hnil] at h
    simp at h
  have hy : (trimEnd l).getLast? = some ch := by
    conv_lhs => rw [← List.takeWhile_append_dropWhile rustWS (trimEnd l)]
    rw [List.getLast?_append_of_ne_nil _ hne]
    exact h
  exact trimEnd_lastOK l ch hy

theorem trimEnd_eq_self (l : List Char) (h : lastOK l) : trimEnd l = l := by
  unfold trimEnd
  rw [dropWhile_eq_self_of_head rustWS l.reverse
    (by intro ch hc; exact h ch (by rwa [← List.head?_reverse]))]
  exact List.reverse_reverse l

theorem trimStart_eq_self (l : List Char) (h : headOK l) : trimStart l = l :=
  dropWhile_eq_self_of_head rustWS l h

theorem trimChars_eq_self (l : List Char) (h1 : headOK l) (h2 : lastOK l) :
    trimChars l = l := by
  unfold trimChars
  rw [trimEnd_eq_self l h2]
  exact trimStart_eq_self l h1

theorem trimChars_idem (l : List Char) : trimChars (trimChars l) = trimChars l :=
  trimChars_eq_self _ (trimChars_headOK l) (trimChars_lastOK l)

theorem trimEnd_length_lt (l : List Char) (ch : Char)
    (h : l.getLast? = some ch) (hws : rustWS ch = true) :
    (trimEnd l).length < l.length := by
  unfold trimEnd
  rw [List.length_reverse]
  have hh : l.reverse.head? = some ch := by rwa [List.head?_reverse]
  cases hr : l.reverse with
  | nil => rw [hr] at hh; simp at hh
  | cons a t =>
    rw [hr] at hh
    have ha : a = ch := by simpa using hh
    subst ha
    have h2 := length_dropWhile_lt_of_head rustWS a t hws
    have h3 : l.length = (a :: t).length := by
      rw [← List.length_reverse l, hr]
    rw [h3]
    exact h2

/-- Characterization of trim fixpoints, reverse direction: a trim fixpoint
has non-whitespace head and last character. -/
theorem headOK_of_trimChars_eq_self (l : List Char) (h : trimChars l = l) :
    headOK l ∧ lastOK l := by
  constructor
  · rw [← h]; exact trimChars_headOK l
  · rw [← h]; exact trimChars_lastOK l

/-! ### `splitFirst` specification -/

theorem splitFirst_eq_some (c : Char) (l a b : List Char)
    (h : splitFirst c l = some (a, b)) : l = a ++ c :: b ∧ c ∉ a := by
  induction l generalizing a with
  | nil => simp [splitFirst] at h
  | cons x t ih =>
    by_cases hx : x = c
    · subst hx
      simp [splitFirst] at h
      obtain ⟨ha, hb⟩ := h
      subst ha; subst hb
      simp
    · simp only [splitFirst, if_neg hx, Option.map_eq_some'] at h
      obtain ⟨⟨a', b'⟩, hrec, heq⟩ := h
      simp at heq
      obtain ⟨ha, hb⟩ := heq
      subst hb
      obtain ⟨hl, hni⟩ := ih a' hrec
      subst ha
      constructor
      · simp [hl]
      · simp only [List.mem_cons, not_or]
        exact ⟨fun hc => hx hc.symm, hni⟩

theorem splitFirst_append (c : Char) (a b : List Char) (h : c ∉ a) :
    splitFirst c (a ++ c :: b) = some (a, b) := by
  induction a with
  | nil => simp [splitFirst]
  | cons x t ih =>
    have hx : ¬ x = c := by intro hc; exact h (by simp [hc])
    have ht : c ∉ t := fun hc => h (by simp [hc])
    simp [splitFirst, hx, ih ht]

theorem splitFirst_eq_none (c : Char) (l : List Char) :
    splitFirst c l = none ↔ c ∉ l := by
  induction l with
  | nil => simp [splitFirst]
  | cons x t ih =>
    by_cases hx : x = c
    · subst hx; simp [splitFirst]
    · simp only [splitFirst, if_neg hx, Option.map_eq_none', List.mem_cons, not_or]
      rw [ih]
      constructor
      · intro h
        exact ⟨fun hc => hx hc.symm, h⟩
      · intro h
        exact h.2

/-! ### `splitNl` / `joinNl` specification -/

theorem splitNl_ne_nil (l : List Char) : splitNl l ≠ [] := by
  cases l with
  | nil => simp [splitNl]
  | cons c rest =>
    by_cases h : c = '\n'
    · simp [splitNl, h]
    · simp only [splitNl, if_neg h]
      cases splitNl rest <;> simp

theorem mem_splitNl_no_nl (l : List Char) : ∀ p ∈ splitNl l, '\n' ∉ p := by
  induction l with
  | nil => intro p hp; simp [splitNl] at hp; simp [hp]
  | cons c rest ih =>
    intro p hp
    by_cases h : c = '\n'
    · simp only [splitNl, if_pos h, List.mem_cons] at hp
      rcases hp with hp | hp
      · simp [hp]
      · exact ih p hp
    · simp only [splitNl, if_neg h] at hp
      cases hsp : splitNl rest with
      | nil => exact absurd hsp (splitNl_ne_nil rest)
      | cons q qs =>
        rw [hsp] at hp
        simp only [List.mem_cons] at hp
        rcases hp with hp | hp
        · subst hp
          intro hm
          rcases List.mem_cons.mp hm with hm | hm
          · exact h hm.symm
          · exact ih q (by simp [hsp]) hm
        · exact ih p (by simp [hsp, hp])

theorem splitNl_no_nl (l : List Char) (h : '\n' ∉ l) : splitNl l = [l] := by
  induction l with
  | nil => rfl
  | cons c rest ih =>
    have hc : ¬ c = '\n' := fun hc => h (by simp [hc])
    have hr : '\n' ∉ rest := fun hm => h (by simp [hm])
    simp [splitNl, hc, ih hr]

theorem splitNl_append_nl (a rest : List Char) (h : '\n' ∉ a) :
    splitNl (a ++ '\n' :: rest) = a :: splitNl rest := by
  induction a with
  | nil => simp [splitNl]
  | cons c t ih =>
    have hc : ¬ c = '\n' := fun hc => h (by simp [hc])
    have ht : '\n' ∉ t := fun hm => h (by simp [hm])
    show splitNl (c :: (t ++ '\n' :: rest)) = (c :: t) :: splitNl rest
    simp only [splitNl, if_neg hc, ih ht]

theorem joinNl_cons (l : List Char) (rest : List (List Char)) (h : rest ≠ []) :
    joinNl (l :: rest) = l ++ '\n' :: joinNl rest := by
  cases rest with
  | nil => exact absurd rfl h
  | cons r rs => rfl

theorem splitNl_joinNl (L : List (List Char)) (hne : L ≠ [])
    (h : ∀ p ∈ L, '\n' ∉ p) : splitNl (joinNl L) = L := by
  induction L with
  | nil => exact absurd rfl hne
  | cons l rest ih =>
    cases rest with
    | nil =>
      simp only [joinNl]
      exact splitNl_no_nl l (h l (by simp))
    | cons r rs =>
      rw [joinNl_cons l (r :: rs) (by simp)]
      rw [splitNl_append_nl l _ (h l (by simp))]
      rw [ih (by simp) (fun p hp => h p (by simp [hp]))]

theorem joinNl_append_single (L : List (List Char)) (x : List Char) (h : L ≠ []) :
    joinNl (L ++ [x]) = joinNl L ++ '\n' :: x := by
  induction L with
  | nil => exact absurd rfl h
  | cons l rest ih =>
    cases rest with
    | nil => simp [joinNl]
    | cons r rs =>
      rw [List.cons_append, joinNl_cons l (r :: rs ++ [x]) (by simp),
        joinNl_cons l (r :: rs) (by simp), ih (by simp)]
      simp

theorem stripCR_eq_self (l : List Char) (h : l.getLast? ≠ some '\r') :
    stripCR l = l := by
  simp [stripCR, h]

/-- Reading back a file written as newline-terminated lines: `rustLines`
recovers exactly the written lines, provided no line contains `'\n'` and no
line ends with `'\r'`. -/
theorem rustLinesData_joinNl (L : List (List Char)) (hne : L ≠ [])
    (h : ∀ p ∈ L, '\n' ∉ p ∧ p.getLast? ≠ some '\r') :
    rustLinesData (joinNl L ++ ['\n']) = L := by
  have hjoin : joinNl L ++ ['\n'] = joinNl (L ++ [[]]) := by
    rw [joinNl_append_single L [] hne]
  rw [hjoin]
  unfold rustLinesData
  rw [splitNl_joinNl (L ++ [[]]) (by simp)
    (by
      intro p hp
      rcases List.mem_append.mp hp with hp | hp
      · exact (h p hp).1
      · simp at hp; simp [hp])]
  have hmap : L.map stripCR = L := by
    have hcongr := @List.map_congr_left _ L _ stripCR id
      (fun p hp => stripCR_eq_self p (h p hp).2)
    simpa using hcongr
  simp [List.getLast?_concat, List.dropLast_concat, hmap]

/-! ## Error taxonomy (`src/core/errors.rs`)

`PathBuf` payloads are modelled as `String`s.  The `Io` variant's payload
is its rendered message. -/

inductive VaulticError where
  | fileNotFound (path : String)
  | encryptionFailed (reason : String)
  | decryptionNoKey
  | parseError (file : String) (detail : String)
  | environmentNotFound (name : String) (available : String)
  | circularInheritance (chain : String)
  | keyNotFound (identity : String)
  | keyAlreadyExists (identity : String)
  | invalidConfig (detail : String)
  | auditError (detail : String)
  | hookError (detail : String)
  | updateCheckFailed (reason : String)
  | updateVerificationFailed (reason : String)
  | updateFailed (reason : String)
  | unsupportedPlatform (platform : String)
  | templateNotFound (searched : String)
  | formatVersionTooNew (projectVersion : Nat) (supportedVersion : Nat)
  | ioError (message : String)
deriving DecidableEq, Repr

/-! ## Secret-file model (`src/core/models/secret_file.rs`) -/

/-- A single key-value entry in a secrets file. -/
structure SecretEntry where
  key : String
  value : String
  comment : Option String
  line_number : Nat
deriving DecidableEq, Repr

/-- Any line in a secrets file. -/
inductive Line where
  | entry (e : SecretEntry)
  | comment (text : String)
  | blank
deriving DecidableEq, Repr

/-- A parsed secrets file: ordered lines plus an optional source path. -/
structure SecretFile where
  lines : List Line
  source_path : Option String
deriving DecidableEq, Repr

namespace SecretFile

/-- `SecretFile::entries`: only the key-value entries, in order. -/
def entries (f : SecretFile) : List SecretEntry :=
  f.lines.filterMap (fun l =>
    match l with
    | .entry e => some e
    | _ => none)

/-- `SecretFile::get`: the value for the given key, if present. -/
def get (f : SecretFile) (key : String) : Option String :=
  (f.entries.find? (fun e => e.key = key)).map (fun e => e.value)

/-- `SecretFile::keys`: all keys in the file, in order. -/
def keys (f : SecretFile) : List String :=
  f.entries.map (fun e => e.key)

end SecretFile

/-! ## Dotenv parser (`src/adapters/parsers/dotenv_parser.rs`) -/

/-- `strip_quotes`: remove matching surrounding quotes (single or double).

The Rust source inspects the first and last UTF-8 *bytes* and the byte
length; because a quote byte (`0x22`/`0x27`) is never part of a multi-byte
UTF-8 character, the guard is equivalent to this character-level one. -/
def stripQuotes (l : List Char) : List Char :=
  if 2 ≤ l.length ∧
      ((l.head? = some '"' ∧ l.getLast? = some '"') ∨
       (l.head? = some '\'' ∧ l.getLast? = some '\'')) then
    l.tail.dropLast
  else l

namespace DotenvParser

/-- `DotenvParser::parse_line`: parse a single raw line. -/
def parse_line (raw : String) (line_number : Nat) : Except VaulticError Line :=
  let trimmed := trimChars raw.data
  if trimmed = [] then .ok .blank
  else if trimmed.head? = some '#' then .ok (.comment raw)
  else
    match splitFirst '=' trimmed with
    | none =>
      .error (.parseError ".env"
        ("line " ++ toString line_number ++ ": expected KEY=value, got: " ++
          String.mk trimmed))
    | some (pre, post) =>
      let key := trimChars pre
      if key = [] then
        .error (.parseError ".env" ("line " ++ toString line_number ++ ": empty key"))
      else
        let value := stripQuotes (trimChars post)
        .ok (.entry ⟨⟨key⟩, ⟨value⟩, none, line_number⟩)

/-- The parse loop over the enumerated lines: `line_number = idx + 1`,
first failure aborts. -/
def parseLines (lineNumber : Nat) : List String → Except VaulticError (List Line)
  | [] => .ok []
  | raw :: rest => do
    let l ← parse_line raw lineNumber
    let ls ← parseLines (lineNumber + 1) rest
    pure (l :: ls)

/-- `DotenvParser::parse` (via the `ConfigParser` trait): iterate
`content.lines()` and parse each line. -/
def parse (content : String) : Except VaulticError SecretFile :=
  (parseLines 1 (rustLines content)).map
    (fun ls => { lines := ls, source_path := none })

/-- Serialization of one line: `Entry` → `key=value`, `Comment` → its text,
`Blank` → the empty line. -/
def serializeLine : Line → List Char
  | .entry e => e.key.data ++ '=' :: e.value.data
  | .comment t => t.data
  | .blank => []

/-- `DotenvParser::serialize`: join the serialized lines with `'\n'`
(no trailing newline).  The Rust function always returns `Ok`, so it is
modelled as returning the string directly. -/
def serialize (f : SecretFile) : String :=
  ⟨joinNl (f.lines.map serializeLine)⟩

end DotenvParser

/-! ### Byte-stability of parse-then-serialize (claim C1)

A raw line is *byte-stable* when parsing and re-serializing it reproduces
it exactly.  `stableLine` is the syntactic characterization: the line is
empty, or a comment, or an exact `KEY=value` with no whitespace padding
around key or value, a non-empty key, and a value that is not wrapped in
matching quotes. -/

def stableLine (raw : String) : Bool :=
  let d := raw.data
  if d = [] then true
  else if trimChars d ≠ [] ∧ (trimChars d).head? = some '#' then true
  else
    match splitFirst '=' d with
    | none => false
    | some (k, v) =>
      decide (k ≠ [] ∧ k.head? ≠ some '#' ∧ trimChars k = k ∧ trimChars v = v ∧
        stripQuotes v = v)

theorem head?_append_left {α : Type} (a b : List α) (h : a ≠ []) :
    (a ++ b).head? = a.head? := by
  cases a with
  | nil => exact absurd rfl h
  | cons x t => rfl

/-- Parsing an exact, unpadded `KEY=value` line yields the evident entry. -/
theorem parse_line_exact (raw : String) (n : Nat) (k v : List Char)
    (hsplit : splitFirst '=' raw.data = some (k, v))
    (hk : k ≠ []) (hhash : k.head? ≠ some '#')
    (htk : trimChars k = k) (htv : trimChars v = v)
    (hq : stripQuotes v = v) :
    DotenvParser.parse_line raw n = .ok (.entry ⟨⟨k⟩, ⟨v⟩, none, n⟩) ∧
    DotenvParser.serializeLine (.entry ⟨⟨k⟩, ⟨v⟩, none, n⟩) = raw.data := by
  obtain ⟨hraw, hknoeq⟩ := splitFirst_eq_some '=' raw.data k v hsplit
  obtain ⟨hkh, hkl⟩ := headOK_of_trimChars_eq_self k htk
  obtain ⟨hvh, hvl⟩ := headOK_of_trimChars_eq_self v htv
  have hhead : headOK raw.data := by
    intro ch hch
    rw [hraw, head?_append_left k ('=' :: v) hk] at hch
    exact hkh ch hch
  have hlast : lastOK raw.data := by
    intro ch hch
    rw [hraw, List.getLast?_append_of_ne_nil _ (by simp : '=' :: v ≠ [])] at hch
    cases v with
    | nil =>
      simp at hch
      subst hch
      decide
    | cons a t =>
      rw [show ('=' :: a :: t) = ['='] ++ (a :: t) from rfl,
        List.getLast?_append_of_ne_nil _ (by simp : a :: t ≠ [])] at hch
      exact hvl ch hch
  have htrim : trimChars raw.data = raw.data := trimChars_eq_self _ hhead hlast
  have hne : raw.data ≠ [] := by
    rw [hraw]
    intro hnil
    exact hk (List.append_eq_nil.mp hnil).1
  have hheadne : raw.data.head? ≠ some '#' := by
    rw [hraw, head?_append_left k ('=' :: v) hk]
    exact hhash
  constructor
  · unfold DotenvParser.parse_line
    rw [htrim]
    rw [if_neg hne, if_neg hheadne, hsplit]
    simp only [htk, htv, hq, if_neg hk]
  · show (⟨k⟩ : String).data ++ '=' :: (⟨v⟩ : String).data = raw.data
    rw [hraw]

/-- Every stable line parses successfully and re-serializes to itself. -/
theorem stableLine_parse_serialize (raw : String) (n : Nat)
    (h : stableLine raw = true) :
    ∃ l, DotenvParser.parse_line raw n = .ok l ∧
      DotenvParser.serializeLine l = raw.data := by
  unfold stableLine at h
  by_cases hd : raw.data = []
  · refine ⟨.blank, ?_, ?_⟩
    · unfold DotenvParser.parse_line
      rw [show trimChars raw.data = [] from by rw [hd]; rfl]
      simp
    · simp [DotenvParser.serializeLine, hd]
  · rw [if_neg hd] at h
    by_cases hc : trimChars raw.data ≠ [] ∧ (trimChars raw.data).head? = some '#'
    · refine ⟨.comment raw, ?_, ?_⟩
      · unfold DotenvParser.parse_line
        rw [if_neg hc.1, if_pos hc.2]
      · rfl
    · rw [if_neg hc] at h
      cases hsplit : splitFirst '=' raw.data with
      | none => rw [hsplit] at h; simp at h
      | some p =>
        obtain ⟨k, v⟩ := p
        rw [hsplit] at h
        simp only [decide_eq_true_eq] at h
        obtain ⟨hk, hhash, htk, htv, hq⟩ := h
        obtain ⟨hok, hser⟩ := parse_line_exact raw n k v hsplit hk hhash htk htv hq
        exact ⟨_, hok, hser⟩

/-- The parse loop on a list of stable lines succeeds, and the parsed lines
re-serialize to the raw lines. -/
theorem parseLines_stable (L : List String) (hstable : ∀ raw ∈ L, stableLine raw = true) :
    ∀ n, ∃ ls, DotenvParser.parseLines n L = .ok ls ∧
      ls.map DotenvParser.serializeLine = L.map String.data := by
  induction L with
  | nil => intro n; exact ⟨[], rfl, rfl⟩
  | cons raw rest ih =>
    intro n
    obtain ⟨l, hok, hser⟩ := stableLine_parse_serialize raw n (hstable raw (by simp))
    obtain ⟨ls, hok2, hser2⟩ := ih (fun r hr => hstable r (by simp [hr])) (n + 1)
    refine ⟨l :: ls, ?_, ?_⟩
    · unfold DotenvParser.parseLines
      rw [hok, hok2]
      rfl
    · simp [hser, hser2]

/-- **C1** (counterexample).  Parse-then-serialize is *not* byte-stable for
every successfully parsed input, and `" A=1"` — which matches the claim's
padded pattern `^\s*key\s*=\s*value\s*$` with no surrounding quotes on the
value — parses successfully yet re-serializes to `"A=1"`: the claimed
round-trip law fails on it. -/
theorem C1_counterexample :
    (DotenvParser.parse " A=1").map DotenvParser.serialize = .ok "A=1" ∧
    (" A=1" : String) ≠ "A=1" := by
  constructor
  · rfl
  · decide

/-- **C1** (amended).  Parse-then-serialize is byte-stable for every input
`s` that is exactly the `'\n'`-join of its lines (no trailing newline, no
`"\r\n"` terminators) in which every line is empty, a comment, or an exact
`KEY=value` line with no whitespace padding around the key or the value,
a non-empty key, and a value not wrapped in matching quotes
(`stableLine`): `parse s` succeeds and `serialize (parse s) = s`. -/
theorem C1_roundtrip_stable (s : String)
    (hjoin : s.data = joinNl ((rustLines s).map String.data))
    (hstable : ∀ raw ∈ rustLines s, stableLine raw = true) :
    (DotenvParser.parse s).map DotenvParser.serialize = .ok s := by
  obtain ⟨ls, hok, hser⟩ := parseLines_stable (rustLines s) hstable 1
  unfold DotenvParser.parse
  rw [hok]
  show Except.ok (DotenvParser.serialize ⟨ls, none⟩) = Except.ok s
  unfold DotenvParser.serialize
  congr 1
  show (⟨joinNl (ls.map DotenvParser.serializeLine)⟩ : String) = s
  rw [hser, ← hjoin]

/-- Witness for `C1_roundtrip_stable` at a concrete input containing a
comment, a blank line and two entries. -/
theorem C1_roundtrip_stable_witness :
    ("# c\nA=1\n\nB=2" : String).data =
        joinNl ((rustLines "# c\nA=1\n\nB=2").map String.data) ∧
    (rustLines "# c\nA=1\n\nB=2").all stableLine = true ∧
    (DotenvParser.parse "# c\nA=1\n\nB=2").map DotenvParser.serialize =
      .ok "# c\nA=1\n\nB=2" :=
  ⟨by decide, by decide,
    C1_roundtrip_stable "# c\nA=1\n\nB=2" (by decide) (by decide)⟩

/-! ## First-occurrence lookup (claim C9) -/

/-- Entries of a concatenation of line lists. -/
theorem entries_append (a b : List Line) :
    (SecretFile.mk (a ++ b) none).entries =
      (SecretFile.mk a none).entries ++ (SecretFile.mk b none).entries := by
  unfold SecretFile.entries
  exact List.filterMap_append a b _

namespace EnvResolver

/-- One iteration of the key-index loop: `key_index.insert(e.key, i)`
(an insert overwrites any earlier binding of the key). -/
def buildKeyIndexStep (m : String → Option Nat) (p : Nat × Line) :
    String → Option Nat :=
  match p.2 with
  | .entry e => fun k => if k = e.key then some p.1 else m k
  | _ => m

/-- The `key → index_in_lines` lookup built from the enumerated lines
(`HashMap` modelled as a function; only lookups are performed on it). -/
def buildKeyIndex (lines : List Line) : String → Option Nat :=
  (List.enumFrom 0 lines).foldl buildKeyIndexStep (fun _ => none)

/-- One iteration of the merge loop over the overlay's lines. -/
def mergeStep (st : List Line × (String → Option Nat)) (line : Line) :
    List Line × (String → Option Nat) :=
  match line with
  | .entry e =>
    match st.2 e.key with
    | some idx => (st.1.set idx (.entry e), st.2)
    | none => (st.1 ++ [.entry e], fun k => if k = e.key then some st.1.length else st.2 k)
  | _ => (st.1 ++ [line], st.2)

/-- `EnvResolver::merge`: clone the base's lines, index their keys, then
fold the overlay's lines over them (replace in place on a known key,
append otherwise; comments and blanks are appended). -/
def merge (base overlay : SecretFile) : SecretFile :=
  let st := overlay.lines.foldl mergeStep (base.lines, buildKeyIndex base.lines)
  ⟨st.1, none⟩

end EnvResolver

/-! ### Merge analysis (claim C2) -/

open EnvResolver

/-- Is this line an entry with key `k`? -/
def isKeyEntry (k : String) : Line → Bool
  | .entry e => decide (e.key = k)
  | _ => false

/-- Number of entries with key `k` among the lines. -/
def countKey (k : String) (lines : List Line) : Nat :=
  lines.countP (isKeyEntry k)

/-- `SecretFile.get` on a bare line list. -/
def getK (k : String) (lines : List Line) : Option String :=
  (SecretFile.mk lines none).get k

/-- The index the key-index loop leaves for key `k`: the index of the
*last* entry with that key, if any (inserts overwrite). -/
def lastKeyIdx (i0 : Nat) (k : String) : List Line → Option Nat
  | [] => none
  | l :: rest =>
    match lastKeyIdx (i0 + 1) k rest with
    | some j => some j
    | none =>
      match l with
      | .entry e => if k = e.key then some i0 else none
      | _ => none

theorem lastKeyIdx_cons (i0 : Nat) (k : String) (l : Line) (rest : List Line) :
    lastKeyIdx i0 k (l :: rest) =
      (match lastKeyIdx (i0 + 1) k rest with
       | some j => some j
       | none =>
         match l with
         | .entry e => if k = e.key then some i0 else none
         | _ => none) := rfl

theorem foldl_buildKeyIndex_char (L : List Line) :
    ∀ (i0 : Nat) (m : String → Option Nat) (k : String),
      ((List.enumFrom i0 L).foldl buildKeyIndexStep m) k =
        ((lastKeyIdx i0 k L).orElse (fun _ => m k)) := by
  induction L with
  | nil => intro i0 m k; rfl
  | cons l rest ih =>
    intro i0 m k
    show ((List.enumFrom (i0 + 1) rest).foldl buildKeyIndexStep
      (buildKeyIndexStep m (i0, l))) k = _
    rw [ih (i0 + 1) (buildKeyIndexStep m (i0, l)) k]
    rw [lastKeyIdx_cons]
    cases hrest : lastKeyIdx (i0 + 1) k rest with
    | some j => simp [Option.orElse]
    | none =>
      cases l with
      | entry e =>
        by_cases hk : k = e.key
        · subst hk
          simp [buildKeyIndexStep, Option.orElse]
        · simp [buildKeyIndexStep, hk, Option.orElse]
      | comment t => simp [buildKeyIndexStep, Option.orElse]
      | blank => simp [buildKeyIndexStep, Option.orElse]

theorem buildKeyIndex_eq_lastKeyIdx (lines : List Line) (k : String) :
    EnvResolver.buildKeyIndex lines k = lastKeyIdx 0 k lines := by
  unfold EnvResolver.buildKeyIndex
  rw [foldl_buildKeyIndex_char lines 0 _ k]
  cases lastKeyIdx 0 k lines <;> simp [Option.orElse]

theorem lastKeyIdx_some (k : String) (L : List Line) :
    ∀ i0 j, lastKeyIdx i0 k L = some j →
      i0 ≤ j ∧ ∃ e, L[j - i0]? = some (Line.entry e) ∧ e.key = k := by
  induction L with
  | nil => intro i0 j h; simp [lastKeyIdx] at h
  | cons l rest ih =>
    intro i0 j h
    rw [lastKeyIdx_cons] at h
    cases hrest : lastKeyIdx (i0 + 1) k rest with
    | some j' =>
      rw [hrest] at h
      cases h
      obtain ⟨hle, e, hget, hkey⟩ := ih (i0 + 1) j hrest
      refine ⟨by omega, e, ?_, hkey⟩
      have hd : j - i0 = (j - (i0 + 1)) + 1 := by omega
      rw [hd]
      simpa using hget
    | none =>
      rw [hrest] at h
      cases l with
      | entry e =>
        by_cases hk : k = e.key
        · simp only [hk, if_pos rfl] at h
          cases h
          refine ⟨Nat.le_refl _, e, ?_, hk.symm⟩
          simp
        · simp [hk] at h
      | comment t => simp at h
      | blank => simp at h

theorem lastKeyIdx_none (k : String) (L : List Line) :
    ∀ i0, lastKeyIdx i0 k L = none ↔ countKey k L = 0 := by
  induction L with
  | nil => intro i0; simp [lastKeyIdx, countKey]
  | cons l rest ih =>
    intro i0
    rw [lastKeyIdx_cons]
    simp only [countKey, List.countP_cons]
    cases hrest : lastKeyIdx (i0 + 1) k rest with
    | some j =>
      have hne : List.countP (isKeyEntry k) rest ≠ 0 := by
        intro h0
        have hnone : lastKeyIdx (i0 + 1) k rest = none := (ih (i0 + 1)).mpr h0
        rw [hrest] at hnone
        exact Option.noConfusion hnone
      constructor
      · intro h; exact absurd h (by simp)
      · intro h; omega
    | none =>
      have hr0 : List.countP (isKeyEntry k) rest = 0 := (ih (i0 + 1)).mp hrest
      cases l with
      | entry e =>
        by_cases hk : k = e.key
        · have hik : isKeyEntry k (Line.entry e) = true := by
            simp [isKeyEntry, hk]
          rw [hk] at hik
          simp [hik, hk]
        · have hik : isKeyEntry k (Line.entry e) = false := by
            simp only [isKeyEntry, decide_eq_false_iff_not]
            exact fun hc => hk hc.symm
          simp [hik, hk, hr0]
      | comment t => simp [isKeyEntry, hr0]
      | blank => simp [isKeyEntry, hr0]

theorem getK_cons (k : String) (l : Line) (rest : List Line) :
    getK k (l :: rest) =
      (match l with
       | .entry e => if e.key = k then some e.value else getK k rest
       | _ => getK k rest) := by
  cases l with
  | entry e =>
    by_cases h : e.key = k
    · simp [getK, SecretFile.get, SecretFile.entries, List.filterMap_cons, List.find?, h]
    · simp [getK, SecretFile.get, SecretFile.entries, List.filterMap_cons, List.find?, h]
  | comment t => simp [getK, SecretFile.get, SecretFile.entries, List.filterMap_cons]
  | blank => simp [getK, SecretFile.get, SecretFile.entries, List.filterMap_cons]

theorem getK_append (k : String) (a b : List Line) :
    getK k (a ++ b) = (getK k a).or (getK k b) := by
  induction a with
  | nil => simp [getK, SecretFile.get, SecretFile.entries]
  | cons l rest ih =>
    rw [List.cons_append, getK_cons, getK_cons]
    cases l with
    | entry e =>
      by_cases h : e.key = k
      · simp [h]
      · simp [h, ih]
    | comment t => simp [ih]
    | blank => simp [ih]

theorem count_pos_of_cell (k : String) (ls : List Line) (i : Nat) (e : SecretEntry)
    (h : ls[i]? = some (Line.entry e)) (hk : e.key = k) : 1 ≤ countKey k ls := by
  have hm : Line.entry e ∈ ls := by
    have := List.getElem?_eq_some.mp h
    obtain ⟨hlt, hget⟩ := this
    exact hget ▸ List.getElem_mem hlt
  have : 0 < countKey k ls := by
    rw [countKey, List.countP_pos_iff]
    exact ⟨Line.entry e, hm, by simp [isKeyEntry, hk]⟩
  omega

/-- In a list with exactly one entry for `k`, a cell holding a `k`-entry
determines `getK`. -/
theorem getK_unique_cell (k : String) :
    ∀ (ls : List Line) (i : Nat) (e : SecretEntry),
      countKey k ls = 1 → ls[i]? = some (Line.entry e) → e.key = k →
      getK k ls = some e.value := by
  intro ls
  induction ls with
  | nil => intro i e _ h; simp at h
  | cons a rest ih =>
    intro i e hcount hcell hkey
    cases i with
    | zero =>
      simp at hcell
      subst hcell
      rw [getK_cons]
      simp [hkey]
    | succ n =>
      simp only [List.getElem?_cons_succ] at hcell
      have hhead : isKeyEntry k a = false := by
        cases hik : isKeyEntry k a
        · rfl
        · exfalso
          have h1 := count_pos_of_cell k rest n e hcell hkey
          rw [countKey, List.countP_cons, hik, if_pos rfl] at hcount
          rw [countKey] at h1
          omega
      have hrest : countKey k rest = 1 := by
        rw [countKey, List.countP_cons, hhead] at hcount
        rw [countKey]
        simpa using hcount
      rw [getK_cons]
      cases a with
      | entry e' =>
        have hne : ¬ e'.key = k := by
          intro hc
          rw [show isKeyEntry k (Line.entry e') = true from by simp [isKeyEntry, hc]] at hhead
          exact Bool.noConfusion hhead
        simp only [if_neg hne]
        exact ih n e hrest hcell hkey
      | comment t => exact ih n e hrest hcell hkey
      | blank => exact ih n e hrest hcell hkey

theorem countKey_set (k : String) :
    ∀ (ls : List Line) (idx : Nat) (old new : Line),
      ls[idx]? = some old → isKeyEntry k new = isKeyEntry k old →
      countKey k (ls.set idx new) = countKey k ls := by
  intro ls
  induction ls with
  | nil => intro idx old new h _; simp at h
  | cons a rest ih =>
    intro idx old new hcell hsame
    cases idx with
    | zero =>
      simp at hcell
      subst hcell
      simp only [List.set_cons_zero, countKey, List.countP_cons, hsame]
    | succ n =>
      simp only [List.getElem?_cons_succ] at hcell
      simp only [List.set_cons_succ, countKey, List.countP_cons]
      have := ih n old new hcell hsame
      rw [countKey] at this
      rw [countKey] at this
      omega

theorem getK_set_ne (k : String) :
    ∀ (ls : List Line) (idx : Nat) (old new : Line),
      ls[idx]? = some old → isKeyEntry k old = false → isKeyEntry k new = false →
      getK k (ls.set idx new) = getK k ls := by
  intro ls
  induction ls with
  | nil => intro idx old new h _ _; simp at h
  | cons a rest ih =>
    intro idx old new hcell hold hnew
    cases idx with
    | zero =>
      simp at hcell
      subst hcell
      rw [List.set_cons_zero, getK_cons, getK_cons]
      cases a with
      | entry e1 =>
        have h1 : ¬ e1.key = k := by
          intro hc
          rw [show isKeyEntry k (Line.entry e1) = true from by simp [isKeyEntry, hc]] at hold
          exact Bool.noConfusion hold
        cases new with
        | entry e2 =>
          have h2 : ¬ e2.key = k := by
            intro hc
            rw [show isKeyEntry k (Line.entry e2) = true from by simp [isKeyEntry, hc]] at hnew
            exact Bool.noConfusion hnew
          simp [h1, h2]
        | comment t => simp [h1]
        | blank => simp [h1]
      | comment t =>
        cases new with
        | entry e2 =>
          have h2 : ¬ e2.key = k := by
            intro hc
            rw [show isKeyEntry k (Line.entry e2) = true from by simp [isKeyEntry, hc]] at hnew
            exact Bool.noConfusion hnew
          simp [h2]
        | comment t2 => simp
        | blank => simp
      | blank =>
        cases new with
        | entry e2 =>
          have h2 : ¬ e2.key = k := by
            intro hc
            rw [show isKeyEntry k (Line.entry e2) = true from by simp [isKeyEntry, hc]] at hnew
            exact Bool.noConfusion hnew
          simp [h2]
        | comment t2 => simp
        | blank => simp
    | succ n =>
      simp only [List.getElem?_cons_succ] at hcell
      rw [List.set_cons_succ, getK_cons, getK_cons]
      have hr := ih n old new hcell hold hnew
      cases a with
      | entry e =>
        by_cases h : e.key = k
        · simp [h]
        · simp [h, hr]
      | comment t => simp [hr]
      | blank => simp [hr]

/-- The key-index invariant of the merge loop: every index recorded for a
key points at an entry line carrying that key. -/
def GINV (m : String → Option Nat) (ls : List Line) : Prop :=
  ∀ k i, m k = some i → ∃ e, ls[i]? = some (Line.entry e) ∧ e.key = k

theorem GINV_buildKeyIndex (ls : List Line) : GINV (buildKeyIndex ls) ls := by
  intro k i h
  rw [buildKeyIndex_eq_lastKeyIdx] at h
  obtain ⟨_, e, hget, hkey⟩ := lastKeyIdx_some k ls 0 i h
  exact ⟨e, by simpa using hget, hkey⟩

/-- Effect of one merge step on a line that is *not* an entry for `k`. -/
theorem mergeStep_non_k (k : String) (ls : List Line) (m : String → Option Nat)
    (line : Line) (hg : GINV m ls) (hnk : isKeyEntry k line = false) :
    GINV (mergeStep (ls, m) line).2 (mergeStep (ls, m) line).1 ∧
    (mergeStep (ls, m) line).2 k = m k ∧
    countKey k (mergeStep (ls, m) line).1 = countKey k ls ∧
    (∀ (i : Nat) (e : SecretEntry), ls[i]? = some (Line.entry e) → e.key = k →
      ((mergeStep (ls, m) line).1)[i]? = ls[i]?) ∧
    getK k (mergeStep (ls, m) line).1 = getK k ls := by
  have happend : ∀ (x : Line), isKeyEntry k x = false →
      GINV m (ls ++ [x]) ∧ countKey k (ls ++ [x]) = countKey k ls ∧
      (∀ (i : Nat) (e : SecretEntry), ls[i]? = some (Line.entry e) → e.key = k →
        (ls ++ [x])[i]? = ls[i]?) ∧
      getK k (ls ++ [x]) = getK k ls := by
    intro x hx
    refine ⟨?_, ?_, ?_, ?_⟩
    · intro k' i h
      obtain ⟨e, hget, hkey⟩ := hg k' i h
      refine ⟨e, ?_, hkey⟩
      obtain ⟨hlt, _⟩ := List.getElem?_eq_some.mp hget
      rw [List.getElem?_append_left hlt]
      exact hget
    · rw [countKey, List.countP_append]
      have : List.countP (isKeyEntry k) [x] = 0 := by simp [List.countP_cons, hx]
      rw [this]
      rfl
    · intro i e hget _
      obtain ⟨hlt, _⟩ := List.getElem?_eq_some.mp hget
      rw [List.getElem?_append_left hlt]
    · rw [getK_append]
      have hx0 : getK k [x] = none := by
        rw [getK_cons]
        cases x with
        | entry e =>
          have : ¬ e.key = k := by
            intro hc
            rw [show isKeyEntry k (Line.entry e) = true from by simp [isKeyEntry, hc]] at hx
            exact Bool.noConfusion hx
          simp [this, getK, SecretFile.get, SecretFile.entries]
        | comment t => simp [getK, SecretFile.get, SecretFile.entries]
        | blank => simp [getK, SecretFile.get, SecretFile.entries]
      rw [hx0, Option.or_none]
  cases line with
  | comment t => exact ⟨(happend _ hnk).1, rfl, (happend _ hnk).2.1, (happend _ hnk).2.2.1,
      (happend _ hnk).2.2.2⟩
  | blank => exact ⟨(happend _ hnk).1, rfl, (happend _ hnk).2.1, (happend _ hnk).2.2.1,
      (happend _ hnk).2.2.2⟩
  | entry e =>
    have hek : ¬ e.key = k := by
      intro hc
      rw [show isKeyEntry k (Line.entry e) = true from by simp [isKeyEntry, hc]] at hnk
      exact Bool.noConfusion hnk
    cases hidx : m e.key with
    | some idx =>
      obtain ⟨old, hold, holdkey⟩ := hg e.key idx hidx
      have holdnk : isKeyEntry k (Line.entry old) = false := by
        simp only [isKeyEntry, decide_eq_false_iff_not]
        rw [holdkey]
        exact hek
      have hnewnk : isKeyEntry k (Line.entry e) = false := by
        simp only [isKeyEntry, decide_eq_false_iff_not]
        exact hek
      have hstep : mergeStep (ls, m) (Line.entry e) = (ls.set idx (Line.entry e), m) := by
        simp [mergeStep, hidx]
      rw [hstep]
      refine ⟨?_, rfl, ?_, ?_, ?_⟩
      · intro k' i h
        obtain ⟨e1, hget1, hkey1⟩ := hg k' i h
        by_cases hii : i = idx
        · subst hii
          rw [hold] at hget1
          have he1 : e1 = old := by
            cases hget1
            rfl
          subst he1
          refine ⟨e, ?_, by rw [← hkey1, holdkey]⟩
          obtain ⟨hlt, _⟩ := List.getElem?_eq_some.mp hold
          rw [List.getElem?_set]
          simp [hlt]
        · refine ⟨e1, ?_, hkey1⟩
          rw [List.getElem?_set_ne (fun hc => hii hc.symm)]
          exact hget1
      · exact countKey_set k ls idx (Line.entry old) (Line.entry e) hold
          (by rw [holdnk, hnewnk])
      · intro i e1 hget1 hkey1
        have hii : idx ≠ i := by
          intro hc
          subst hc
          rw [hold] at hget1
          cases hget1
          exact hek (by rw [← holdkey]; exact hkey1)
        rw [List.getElem?_set_ne hii]
      · exact getK_set_ne k ls idx (Line.entry old) (Line.entry e) hold holdnk hnewnk
    | none =>
      have hstep : mergeStep (ls, m) (Line.entry e) =
          (ls ++ [Line.entry e], fun k' => if k' = e.key then some ls.length else m k') := by
        simp [mergeStep, hidx]
      rw [hstep]
      have hx := happend (Line.entry e) hnk
      refine ⟨?_, ?_, hx.2.1, hx.2.2.1, hx.2.2.2⟩
      · intro k' i h
        have h' : (if k' = e.key then some ls.length else m k') = some i := h
        by_cases hk' : k' = e.key
        · subst hk'
          rw [if_pos rfl] at h'
          cases h'
          exact ⟨e, by simp, rfl⟩
        · rw [if_neg hk'] at h'
          exact hx.1 k' i h'
      · show (if k = e.key then some ls.length else m k) = m k
        rw [if_neg (by intro hc; exact hek hc.symm)]

/-- Effect of one merge step on the (unique) overlay entry for `k`. -/
theorem mergeStep_k (k : String) (ls : List Line) (m : String → Option Nat)
    (ek : SecretEntry) (hg : GINV m ls) (hkey : ek.key = k)
    (hpk : (m k = none ∧ countKey k ls = 0) ∨
           (∃ i, m k = some i ∧ countKey k ls = 1)) :
    GINV (mergeStep (ls, m) (Line.entry ek)).2 (mergeStep (ls, m) (Line.entry ek)).1 ∧
    ∃ i, (mergeStep (ls, m) (Line.entry ek)).2 k = some i ∧
      ((mergeStep (ls, m) (Line.entry ek)).1)[i]? = some (Line.entry ek) ∧
      countKey k (mergeStep (ls, m) (Line.entry ek)).1 = 1 := by
  have hik : isKeyEntry k (Line.entry ek) = true := by simp [isKeyEntry, hkey]
  rcases hpk with ⟨hnone, hcnt⟩ | ⟨i, hsome, hcnt⟩
  · have hmek : m ek.key = none := by rw [hkey]; exact hnone
    have hstep : mergeStep (ls, m) (Line.entry ek) =
        (ls ++ [Line.entry ek],
          fun k' => if k' = ek.key then some ls.length else m k') := by
      simp [mergeStep, hmek]
    rw [hstep]
    constructor
    · intro k' j h
      have h' : (if k' = ek.key then some ls.length else m k') = some j := h
      by_cases hk' : k' = ek.key
      · subst hk'
        rw [if_pos rfl] at h'
        cases h'
        exact ⟨ek, List.getElem?_concat_length ls _, rfl⟩
      · rw [if_neg hk'] at h'
        obtain ⟨e1, hget1, hkey1⟩ := hg k' j h'
        obtain ⟨hlt, _⟩ := List.getElem?_eq_some.mp hget1
        exact ⟨e1, by rw [List.getElem?_append_left hlt]; exact hget1, hkey1⟩
    · refine ⟨ls.length, ?_, List.getElem?_concat_length ls _, ?_⟩
      · show (if k = ek.key then some ls.length else m k) = some ls.length
        rw [if_pos hkey.symm]
      · rw [countKey, List.countP_append]
        have h1 : List.countP (isKeyEntry k) [Line.entry ek] = 1 := by
          simp [List.countP_cons, hik]
        rw [h1]
        rw [countKey] at hcnt
        omega
  · obtain ⟨old, hold, holdk⟩ := hg k i hsome
    have hmek : m ek.key = some i := by rw [hkey]; exact hsome
    have hstep : mergeStep (ls, m) (Line.entry ek) = (ls.set i (Line.entry ek), m) := by
      simp [mergeStep, hmek]
    rw [hstep]
    obtain ⟨hlt, _⟩ := List.getElem?_eq_some.mp hold
    have holdik : isKeyEntry k (Line.entry old) = true := by simp [isKeyEntry, holdk]
    constructor
    · intro k' j h
      obtain ⟨e1, hget1, hkey1⟩ := hg k' j h
      by_cases hji : j = i
      · subst hji
        rw [hold] at hget1
        cases hget1
        refine ⟨ek, ?_, by rw [hkey, ← holdk]; exact hkey1⟩
        rw [List.getElem?_set]
        simp [hlt]
      · refine ⟨e1, ?_, hkey1⟩
        rw [List.getElem?_set_ne (fun hc => hji hc.symm)]
        exact hget1
    · refine ⟨i, hsome, ?_, ?_⟩
      · rw [List.getElem?_set]
        simp [hlt]
      · rw [countKey_set k ls i (Line.entry old) (Line.entry ek) hold
          (by rw [holdik, hik])]
        exact hcnt

/-- Folding merge steps over overlay lines that contain no entry for `k`
preserves everything `k`-related. -/
theorem foldl_merge_no_k (k : String) :
    ∀ (ol ls : List Line) (m : String → Option Nat),
      countKey k ol = 0 → GINV m ls →
      GINV (ol.foldl mergeStep (ls, m)).2 (ol.foldl mergeStep (ls, m)).1 ∧
      (ol.foldl mergeStep (ls, m)).2 k = m k ∧
      countKey k (ol.foldl mergeStep (ls, m)).1 = countKey k ls ∧
      (∀ (i : Nat) (e : SecretEntry), ls[i]? = some (Line.entry e) → e.key = k →
        ((ol.foldl mergeStep (ls, m)).1)[i]? = ls[i]?) ∧
      getK k (ol.foldl mergeStep (ls, m)).1 = getK k ls := by
  intro ol
  induction ol with
  | nil =>
    intro ls m _ hg
    exact ⟨hg, rfl, rfl, fun i e _ _ => rfl, rfl⟩
  | cons line rest ih =>
    intro ls m hcnt hg
    have hline : isKeyEntry k line = false := by
      cases hl : isKeyEntry k line
      · rfl
      · exfalso
        rw [countKey, List.countP_cons, hl, if_pos rfl] at hcnt
        omega
    have hrest : countKey k rest = 0 := by
      rw [countKey, List.countP_cons, hline] at hcnt
      rw [countKey]
      simpa using hcnt
    obtain ⟨hg1, hm1, hc1, hcell1, hget1⟩ := mergeStep_non_k k ls m line hg hline
    obtain ⟨hg2, hm2, hc2, hcell2, hget2⟩ :=
      ih (mergeStep (ls, m) line).1 (mergeStep (ls, m) line).2 hrest hg1
    rw [List.foldl_cons]
    refine ⟨hg2, ?_, ?_, ?_, ?_⟩
    · exact hm2.trans hm1
    · exact hc2.trans hc1
    · intro i e hcell hkey
      have hstep := hcell1 i e hcell hkey
      have hcell' : ((mergeStep (ls, m) line).1)[i]? = some (Line.entry e) := by
        rw [hstep]
        exact hcell
      exact (hcell2 i e hcell' hkey).trans hstep
    · exact hget2.trans hget1

theorem getK_none_of_count0 (k : String) :
    ∀ L : List Line, countKey k L = 0 → getK k L = none := by
  intro L
  induction L with
  | nil => intro _; simp [getK, SecretFile.get, SecretFile.entries]
  | cons a rest ih =>
    intro h
    rw [countKey, List.countP_cons] at h
    have ha : isKeyEntry k a = false := by
      cases hl : isKeyEntry k a
      · rfl
      · rw [hl, if_pos rfl] at h; omega
    have hr : countKey k rest = 0 := by
      rw [ha] at h
      rw [countKey]
      simpa using h
    rw [getK_cons]
    cases a with
    | entry e =>
      have : ¬ e.key = k := by
        intro hc
        rw [show isKeyEntry k (Line.entry e) = true from by simp [isKeyEntry, hc]] at ha
        exact Bool.noConfusion ha
      simp [this, ih hr]
    | comment t => simp [ih hr]
    | blank => simp [ih hr]

theorem countKey_one_decomp (k : String) :
    ∀ L : List Line, countKey k L = 1 →
      ∃ pre ek post, L = pre ++ Line.entry ek :: post ∧ ek.key = k ∧
        countKey k pre = 0 ∧ countKey k post = 0 := by
  intro L
  induction L with
  | nil => intro h; simp [countKey] at h
  | cons a rest ih =>
    intro h
    rw [countKey, List.countP_cons] at h
    cases ha : isKeyEntry k a
    · rw [ha] at h
      simp at h
      obtain ⟨pre, ek, post, hl, hk, hp0, hq0⟩ := ih (by rw [countKey]; exact h)
      refine ⟨a :: pre, ek, post, by rw [hl]; simp, hk, ?_, hq0⟩
      rw [countKey, List.countP_cons, ha]
      rw [countKey] at hp0
      simpa using hp0
    · rw [ha, if_pos rfl] at h
      have hr : countKey k rest = 0 := by
        rw [countKey]
        omega
      cases a with
      | entry e =>
        have hk : e.key = k := by simpa [isKeyEntry] using ha
        exact ⟨[], e, rest, rfl, hk, by simp [countKey], hr⟩
      | comment t => simp [isKeyEntry] at ha
      | blank => simp [isKeyEntry] at ha

theorem getK_decomp (k : String) (pre post : List Line) (ek : SecretEntry)
    (hk : ek.key = k) (h0 : countKey k pre = 0) :
    getK k (pre ++ Line.entry ek :: post) = some ek.value := by
  rw [getK_append, getK_none_of_count0 k pre h0, Option.none_or, getK_cons]
  simp [hk]

/-- **C2** (counterexample).  Merge right-bias fails in the presence of
duplicate keys: with base `[A=1, A=2]` and overlay `[A=3]`, the key index
records the *last* base occurrence, so the overlay overwrites that one,
while `get` reads the *first* — the merged value of `A` is `"1"`, not the
overlay's `"3"`. -/
theorem C2_counterexample :
    (EnvResolver.merge
        (SecretFile.mk [Line.entry ⟨"A", "1", none, 1⟩, Line.entry ⟨"A", "2", none, 2⟩] none)
        (SecretFile.mk [Line.entry ⟨"A", "3", none, 1⟩] none)).get "A" = some "1" ∧
    (SecretFile.mk [Line.entry ⟨"A", "3", none, 1⟩] none).get "A" = some "3" ∧
    (SecretFile.mk [Line.entry ⟨"A", "1", none, 1⟩, Line.entry ⟨"A", "2", none, 2⟩] none).get "A"
      ≠ none ∧
    (EnvResolver.merge
        (SecretFile.mk [Line.entry ⟨"A", "1", none, 1⟩, Line.entry ⟨"A", "2", none, 2⟩] none)
        (SecretFile.mk [Line.entry ⟨"A", "3", none, 1⟩] none)).get "A" ≠
      (SecretFile.mk [Line.entry ⟨"A", "3", none, 1⟩] none).get "A" := by
  refine ⟨rfl, rfl, ?_, ?_⟩
  · intro h
    exact Option.noConfusion h
  · intro h
    rw [show (EnvResolver.merge
        (SecretFile.mk [Line.entry ⟨"A", "1", none, 1⟩, Line.entry ⟨"A", "2", none, 2⟩] none)
        (SecretFile.mk [Line.entry ⟨"A", "3", none, 1⟩] none)).get "A" = some "1" from rfl] at h
    rw [show (SecretFile.mk [Line.entry ⟨"A", "3", none, 1⟩] none).get "A" = some "3" from rfl] at h
    simp at h

/-- **C2** (amended).  Merge is right-biased for every key that occurs at
most once in each operand: if `k` has exactly one entry in the base and
exactly one entry in the overlay, then `merge(b, o).get k = o.get k`.
(Comments, blanks, and duplicates of *other* keys are unrestricted.) -/
theorem C2_merge_right_bias (b o : SecretFile) (k : String)
    (hb : countKey k b.lines = 1) (ho : countKey k o.lines = 1) :
    (EnvResolver.merge b o).get k = o.get k := by
  obtain ⟨pre, ek, post, hol, hk, hp0, hq0⟩ := countKey_one_decomp k o.lines ho
  have hoget : o.get k = some ek.value := by
    have hrfl : o.get k = getK k o.lines := rfl
    rw [hrfl, hol]
    exact getK_decomp k pre post ek hk hp0
  have hg0 := GINV_buildKeyIndex b.lines
  have hsome0 : ∃ i, buildKeyIndex b.lines k = some i := by
    cases hbk : buildKeyIndex b.lines k with
    | none =>
      exfalso
      rw [buildKeyIndex_eq_lastKeyIdx] at hbk
      have := (lastKeyIdx_none k b.lines 0).mp hbk
      omega
    | some i => exact ⟨i, rfl⟩
  obtain ⟨i0, hbk0⟩ := hsome0
  obtain ⟨hg1, hm1, hc1, hcell1, _⟩ :=
    foldl_merge_no_k k pre b.lines (buildKeyIndex b.lines) hp0 hg0
  have hpk1 : ((pre.foldl mergeStep (b.lines, buildKeyIndex b.lines)).2 k = none ∧
      countKey k (pre.foldl mergeStep (b.lines, buildKeyIndex b.lines)).1 = 0) ∨
      (∃ i, (pre.foldl mergeStep (b.lines, buildKeyIndex b.lines)).2 k = some i ∧
        countKey k (pre.foldl mergeStep (b.lines, buildKeyIndex b.lines)).1 = 1) := by
    right
    exact ⟨i0, by rw [hm1]; exact hbk0, by rw [hc1]; exact hb⟩
  obtain ⟨hg2, j, hm2, hcell2, hc2⟩ :=
    mergeStep_k k (pre.foldl mergeStep (b.lines, buildKeyIndex b.lines)).1
      (pre.foldl mergeStep (b.lines, buildKeyIndex b.lines)).2 ek hg1 hk hpk1
  obtain ⟨_, _, hc3, hcell3, _⟩ :=
    foldl_merge_no_k k post
      (mergeStep (pre.foldl mergeStep (b.lines, buildKeyIndex b.lines)) (Line.entry ek)).1
      (mergeStep (pre.foldl mergeStep (b.lines, buildKeyIndex b.lines)) (Line.entry ek)).2
      hq0 hg2
  have hcellf := hcell3 j ek hcell2 hk
  rw [hcell2] at hcellf
  rw [hc2] at hc3
  have hfinal := getK_unique_cell k _ j ek hc3 hcellf hk
  have hmerge : (EnvResolver.merge b o).get k =
      getK k ((o.lines.foldl mergeStep (b.lines, buildKeyIndex b.lines)).1) := rfl
  rw [hmerge, hol, List.foldl_append, List.foldl_cons, hfinal, hoget]

/-- Witness for `C2_merge_right_bias` on singleton base and overlay. -/
theorem C2_merge_right_bias_witness :
    countKey "A" [Line.entry ⟨"A", "1", none, 1⟩] = 1 ∧
    (EnvResolver.merge (SecretFile.mk [Line.entry ⟨"A", "1", none, 1⟩] none)
        (SecretFile.mk [Line.entry ⟨"A", "2", none, 1⟩] none)).get "A" =
      (SecretFile.mk [Line.entry ⟨"A", "2", none, 1⟩] none).get "A" :=
  ⟨by decide,
    C2_merge_right_bias (SecretFile.mk [Line.entry ⟨"A", "1", none, 1⟩] none)
      (SecretFile.mk [Line.entry ⟨"A", "2", none, 1⟩] none) "A" (by decide) (by decide)⟩

/-! ## App configuration (`src/config/app_config.rs`) -/

/-- An environment entry in `[environments]`. -/
structure EnvEntry where
  file : Option String
  inherits : Option String
  template : Option String
deriving DecidableEq, Repr

/-- The `[vaultic]` section. -/
structure VaulticSection where
  version : String
  format_version : Nat
  default_cipher : String
  default_env : String
  template : Option String
deriving DecidableEq, Repr

/-- The `[audit]` section. -/
structure AuditSection where
  enabled : Bool
  log_file : String
deriving DecidableEq, Repr

/-- Top-level configuration.  The `HashMap<String, EnvEntry>` is modelled
as an association list; the resolver only performs lookups on it, and
lookup takes the first matching binding. -/
structure AppConfig where
  vaultic : VaulticSection
  environments : List (String × EnvEntry)
  audit : Option AuditSection
deriving DecidableEq, Repr

namespace AppConfig

/-- `config.environments.get(name)`. -/
def lookupEnv (c : AppConfig) (n : String) : Option EnvEntry :=
  (c.environments.find? (fun p => p.1 = n)).map (fun p => p.2)

/-- The configured environment names, in configuration order. -/
def envNames (c : AppConfig) : List String := c.environments.map (fun p => p.1)

end AppConfig

/-- Modelled from the spec: the `EnvironmentNotFound` error "lists the
available names".  The resolver snapshot under `src/` constructs the error
without the `available` field that `errors.rs` requires (the snapshot
predates the two-field variant and does not compile against it), so the
construction of the payload is modelled from the spec as the configured
environment names, comma-joined in configuration order. -/
def availableNames (c : AppConfig) : String :=
  ", ".intercalate c.envNames

/-- A resolved environment view (`src/core/models/environment.rs`). -/
structure Environment where
  name : String
  resolved : SecretFile
  layers : List String
deriving DecidableEq, Repr

namespace EnvResolver

/-- `EnvResolver::build_chain`'s loop, with explicit fuel so the function
is structurally recursive (`none` = fuel exhausted; the termination theorem
shows the chosen fuel never runs out).  Walks `inherits` upward, keeping a
visited set (modelled as a list) and the accumulated chain; on success the
chain is reversed so the root comes first. -/
def buildChainAux (config : AppConfig) :
    Nat → String → List String → List String →
    Option (Except VaulticError (List String))
  | 0, _, _, _ => none
  | fuel + 1, current, visited, chain =>
    if current ∈ visited then
      some (.error (.circularInheritance
        (" -> ".intercalate (chain ++ [current]).reverse)))
    else
      match config.lookupEnv current with
      | none => some (.error (.environmentNotFound current (availableNames config)))
      | some entry =>
        match entry.inherits with
        | some parent =>
          buildChainAux config fuel parent (current :: visited) (chain ++ [current])
        | none => some (.ok (chain ++ [current]).reverse)

/-- `EnvResolver::build_chain` with sufficient fuel. -/
def build_chain (c : AppConfig) (name : String) :
    Option (Except VaulticError (List String)) :=
  buildChainAux c (c.environments.length + 1) name [] []

/-- `EnvResolver::resolve`: build the chain, then merge each layer present
in `files` in chain order starting from an empty `SecretFile`. -/
def resolve (c : AppConfig) (name : String) (files : String → Option SecretFile) :
    Option (Except VaulticError Environment) :=
  match build_chain c name with
  | none => none
  | some (.error e) => some (.error e)
  | some (.ok chain) =>
    let merged := chain.foldl (fun acc layerName =>
      match files layerName with
      | some layerFile => merge acc layerFile
      | none => acc) (SecretFile.mk [] none)
    some (.ok ⟨name, merged, chain⟩)

end EnvResolver

/-! ### Chain-building analysis (claims C3, C4) -/

theorem countP_le_countP {α : Type} (p q : α → Bool) (l : List α)
    (h : ∀ a, q a = true → p a = true) : l.countP q ≤ l.countP p := by
  induction l with
  | nil => simp
  | cons a t ih =>
    rw [List.countP_cons, List.countP_cons]
    cases hq : q a
    · cases hp : p a <;> simp <;> omega
    · rw [h a hq]
      simpa using ih

theorem countP_lt_countP {α : Type} (p q : α → Bool) (l : List α)
    (h : ∀ a, q a = true → p a = true) (x : α) (hx : x ∈ l)
    (hpx : p x = true) (hqx : q x = false) : l.countP q < l.countP p := by
  induction l with
  | nil => simp at hx
  | cons a t ih =>
    rw [List.countP_cons, List.countP_cons]
    rcases List.mem_cons.mp hx with hax | hxt
    · subst hax
      rw [hpx, hqx]
      have := countP_le_countP p q t h
      simpa using Nat.lt_succ_of_le this
    · have := ih hxt
      cases hq : q a
      · cases hp : p a <;> simp <;> omega
      · rw [h a hq]
        simp
        omega

/-- Lower bound on the fuel the chain walk can consume: the number of
configured environment names not yet visited. -/
def chainFuelLB (c : AppConfig) (visited : List String) : Nat :=
  (c.envNames.filter (fun n => n ∉ visited)).length

theorem chainFuelLB_lt (c : AppConfig) (visited : List String) (current : String)
    (hmem : current ∈ c.envNames) (hnv : current ∉ visited) :
    chainFuelLB c (current :: visited) < chainFuelLB c visited := by
  unfold chainFuelLB
  rw [← List.countP_eq_length_filter, ← List.countP_eq_length_filter]
  apply countP_lt_countP _ _ _ _ current hmem
  · simp [hnv]
  · simp
  · intro a ha
    simp at ha
    simp [ha.2]

theorem lookupEnv_mem_envNames (c : AppConfig) (n : String) (e : EnvEntry)
    (h : c.lookupEnv n = some e) : n ∈ c.envNames := by
  unfold AppConfig.lookupEnv at h
  rw [Option.map_eq_some'] at h
  obtain ⟨p, hfind, _⟩ := h
  have hmem := List.mem_of_find?_eq_some hfind
  have hp := List.find?_some hfind
  simp at hp
  rw [AppConfig.envNames, List.mem_map]
  exact ⟨p, hmem, hp⟩

/-- With fuel above the lower bound, the chain walk always produces a
result — this is the termination argument for `build_chain`'s loop. -/
theorem buildChainAux_isSome (c : AppConfig) :
    ∀ (fuel : Nat) (current : String) (visited chain : List String),
      chainFuelLB c visited < fuel →
      (EnvResolver.buildChainAux c fuel current visited chain).isSome := by
  intro fuel
  induction fuel with
  | zero => intro current visited chain h; omega
  | succ f ih =>
    intro current visited chain h
    unfold EnvResolver.buildChainAux
    by_cases hv : current ∈ visited
    · simp [hv]
    · rw [if_neg hv]
      cases hl : c.lookupEnv current with
      | none => simp
      | some entry =>
        show (match entry.inherits with
          | some parent =>
            EnvResolver.buildChainAux c f parent (current :: visited) (chain ++ [current])
          | none => some (Except.ok (chain ++ [current]).reverse)).isSome = true
        cases hi : entry.inherits with
        | none => rfl
        | some parent =>
          show (EnvResolver.buildChainAux c f parent (current :: visited)
            (chain ++ [current])).isSome = true
          apply ih
          have hdec := chainFuelLB_lt c visited current
            (lookupEnv_mem_envNames c current entry hl) hv
          omega

/-- Success characterization of the chain walk: the produced extension of
the accumulated chain starts at the current environment, ends at a root
(an entry with no `inherits`), avoids the visited set, and has no
duplicates. -/
theorem buildChainAux_ok (c : AppConfig) :
    ∀ (fuel : Nat) (current : String) (visited chain l : List String),
      EnvResolver.buildChainAux c fuel current visited chain = some (.ok l) →
      ∃ ext, l = (chain ++ ext).reverse ∧ ext ≠ [] ∧ ext.head? = some current ∧
        (∀ x ∈ ext, x ∉ visited) ∧ ext.Nodup ∧
        ∃ r entry, ext.getLast? = some r ∧ c.lookupEnv r = some entry ∧
          entry.inherits = none := by
  intro fuel
  induction fuel with
  | zero => intro current visited chain l h; simp [EnvResolver.buildChainAux] at h
  | succ f ih =>
    intro current visited chain l h
    unfold EnvResolver.buildChainAux at h
    by_cases hv : current ∈ visited
    · rw [if_pos hv] at h
      simp at h
    · rw [if_neg hv] at h
      cases hl : c.lookupEnv current with
      | none =>
        rw [hl] at h
        simp at h
      | some entry =>
        rw [hl] at h
        have h' : (match entry.inherits with
            | some parent =>
              EnvResolver.buildChainAux c f parent (current :: visited) (chain ++ [current])
            | none => some (Except.ok (chain ++ [current]).reverse)) =
            some (.ok l) := h
        cases hi : entry.inherits with
        | some parent =>
          rw [hi] at h'
          have h'' : EnvResolver.buildChainAux c f parent (current :: visited)
              (chain ++ [current]) = some (.ok l) := h'
          obtain ⟨ext', hl', hne', hhead', hnv', hnd', r, rentry, hlast', hlook', hroot'⟩ :=
            ih parent (current :: visited) (chain ++ [current]) l h''
          refine ⟨current :: ext', ?_, by simp, rfl, ?_, ?_, r, rentry, ?_, hlook', hroot'⟩
          · rw [hl']
            simp
          · intro x hx
            rcases List.mem_cons.mp hx with hx | hx
            · subst hx; exact hv
            · intro hmem
              exact hnv' x hx (by simp [hmem])
          · rw [List.nodup_cons]
            refine ⟨?_, hnd'⟩
            intro hmem
            exact hnv' current hmem (by simp)
          · cases hext' : ext' with
            | nil => exact absurd hext' hne'
            | cons a t =>
              rw [hext'] at hlast'
              rw [List.getLast?_cons_cons]
              exact hlast'
        | none =>
          rw [hi] at h'
          have h'' : some (Except.ok ((chain ++ [current]).reverse)) =
              some (Except.ok l) := h'
          have hlv : l = (chain ++ [current]).reverse :=
            (Except.ok.inj (Option.some.inj h'')).symm
          exact ⟨[current], hlv, by simp, rfl, by simpa using hv, by simp,
            current, entry, rfl, hl, hi⟩

/-- **C3**.  For every configuration and requested name, `build_chain`
terminates (the fueled walk never exhausts its fuel), and every successful
chain ends at the requested name, contains no duplicates, and starts at an
environment whose entry has no `inherits` link. -/
theorem C3_build_chain_terminates_and_post (c : AppConfig) (name : String) :
    (EnvResolver.build_chain c name).isSome ∧
    ∀ l, EnvResolver.build_chain c name = some (.ok l) →
      l.getLast? = some name ∧ l.Nodup ∧
      ∃ r entry, l.head? = some r ∧ c.lookupEnv r = some entry ∧
        entry.inherits = none := by
  constructor
  · apply buildChainAux_isSome
    have h1 : chainFuelLB c [] ≤ c.environments.length := by
      unfold chainFuelLB
      calc (c.envNames.filter (fun n => n ∉ ([] : List String))).length
          ≤ c.envNames.length := List.length_filter_le _ _
        _ = c.environments.length := by rw [AppConfig.envNames, List.length_map]
    omega
  · intro l hok
    obtain ⟨ext, hl, _, hhead, _, hnd, r, entry, hlast, hlook, hroot⟩ :=
      buildChainAux_ok c (c.environments.length + 1) name [] [] l hok
    rw [List.nil_append] at hl
    subst hl
    refine ⟨?_, ?_, r, entry, ?_, hlook, hroot⟩
    · rw [List.getLast?_reverse]
      exact hhead
    · rw [List.nodup_reverse]
      exact hnd
    · rw [List.head?_reverse]
      exact hlast

/-- Concrete two-environment configuration for witnesses. -/
def cfgC3 : AppConfig :=
  ⟨⟨"0.1.0", 1, "age", "dev", none⟩,
   [("base", ⟨some "base.env", none, none⟩),
    ("dev", ⟨some "dev.env", some "base", none⟩)],
   none⟩

/-- Witness for `C3_build_chain_terminates_and_post` on `cfgC3`. -/
theorem C3_build_chain_witness :
    (EnvResolver.build_chain cfgC3 "dev").isSome ∧
    EnvResolver.build_chain cfgC3 "dev" = some (.ok ["base", "dev"]) ∧
    (["base", "dev"].getLast? = some "dev" ∧ (["base", "dev"] : List String).Nodup ∧
      ∃ r entry, ["base", "dev"].head? = some r ∧ cfgC3.lookupEnv r = some entry ∧
        entry.inherits = none) :=
  ⟨(C3_build_chain_terminates_and_post cfgC3 "dev").1, rfl,
    (C3_build_chain_terminates_and_post cfgC3 "dev").2 ["base", "dev"] rfl⟩

/-- Lexicographic `≤` on character lists. -/
def lebChars : List Char → List Char → Bool
  | [], _ => true
  | _ :: _, [] => false
  | a :: as, b :: bs => if a = b then lebChars as bs else decide (a < b)

/-- The `Ord`-ordering of Rust's `BTreeSet<&str>`: byte-wise lexicographic
comparison of the UTF-8 encodings, which coincides with code-point-wise
lexicographic comparison (UTF-8 preserves code-point order). -/
def strLeb (a b : String) : Bool := lebChars a.data b.data

/-- A `BTreeSet<&str>` built by collecting a key list: sorted, duplicates
removed. -/
def sortedDedup (l : List String) : List String :=
  (l.insertionSort (fun a b => strLeb a b = true)).dedup

/-- Result of checking a local env file against a template. -/
structure CheckResult where
  missing : List String
  extra : List String
  empty_values : List String
deriving DecidableEq, Repr

/-- `CheckResult::is_ok`. -/
def CheckResult.is_ok (r : CheckResult) : Bool :=
  r.missing.isEmpty && r.extra.isEmpty && r.empty_values.isEmpty

/-- `CheckResult::issue_count`. -/
def CheckResult.issue_count (r : CheckResult) : Nat :=
  r.missing.length + r.extra.length + r.empty_values.length

namespace CheckService

/-- `CheckService::check`: `missing`/`extra` are `BTreeSet` differences
(iterated in sorted order); `empty_values` filters the local entries *in
file order* (this is the part claim C5 is about). -/
def check (localFile templateFile : SecretFile) : CheckResult :=
  let localKeys := sortedDedup localFile.keys
  let templateKeys := sortedDedup templateFile.keys
  ⟨templateKeys.filter (fun k => k ∉ localKeys),
   localKeys.filter (fun k => k ∉ templateKeys),
   (localFile.entries.filter (fun e => e.value = "")).map (fun e => e.key)⟩

end CheckService

/-- **C5** (code bug).  The claim — and the code's own documentation
("All result vectors are sorted alphabetically") — require `empty_values`
to be sorted, but the code collects it in file order: for a local file
with empty-valued `B` before empty-valued `A` against a template defining
both keys, `check` returns `empty_values = ["B", "A"]`, which is not
sorted (while `missing`/`extra` are empty as expected). -/
theorem C5_check_empty_values_unsorted :
    CheckService.check
        (SecretFile.mk [Line.entry ⟨"B", "", none, 1⟩, Line.entry ⟨"A", "", none, 2⟩] none)
        (SecretFile.mk [Line.entry ⟨"A", "x", none, 1⟩, Line.entry ⟨"B", "y", none, 2⟩] none) =
      ⟨[], [], ["B", "A"]⟩ ∧
    ¬ List.Sorted (fun a b => strLeb a b = true) (["B", "A"] : List String) := by
  constructor
  · rfl
  · intro h
    have hba : strLeb "B" "A" = true := (List.pairwise_cons.mp h).1 "A" (by simp)
    exact absurd hba (by decide)

/-- The JSON-lines audit logger; its state is the log file path, modelled
as path components (`PathBuf::join` appends a component). -/
structure JsonAuditLogger where
  log_path : List String
deriving DecidableEq, Repr

namespace JsonAuditLogger

/-- `JsonAuditLogger::new`: `{vaultic_dir}/{log_file}`. -/
def new (vaultic_dir : List String) (log_file : String) : JsonAuditLogger :=
  ⟨vaultic_dir ++ [log_file]⟩

/-- `JsonAuditLogger::from_config`: fall back to `"audit.log"` when the
`[audit]` section is absent. -/
def from_config (vaultic_dir : List String) (audit_section : Option AuditSection) :
    JsonAuditLogger :=
  new vaultic_dir ((audit_section.map (fun a => a.log_file)).getD "audit.log")

/-- `JsonAuditLogger::is_enabled`: `true` when the section is absent. -/
def is_enabled (audit_section : Option AuditSection) : Bool :=
  (audit_section.map (fun a => a.enabled)).getD true

end JsonAuditLogger

/-- **C10**.  Auditing is enabled by default: `is_enabled` is `true` for an
absent `[audit]` section and exactly the section's `enabled` flag
otherwise; `from_config` falls back to the log file name `"audit.log"`
when the section is absent, and uses the configured name otherwise. -/
theorem C10_audit_default_on :
    JsonAuditLogger.is_enabled none = true ∧
    (∀ a : AuditSection, JsonAuditLogger.is_enabled (some a) = a.enabled) ∧
    (∀ dir : List String, JsonAuditLogger.from_config dir none =
      JsonAuditLogger.new dir "audit.log") ∧
    (∀ (dir : List String) (a : AuditSection), JsonAuditLogger.from_config dir (some a) =
      JsonAuditLogger.new dir a.log_file) :=
  ⟨rfl, fun _ => rfl, fun _ => rfl, fun _ _ => rfl⟩

/-! ## File key store (`src/adapters/key_stores/file_key_store.rs`)

The store's file is modelled as an `Option String` (`none` = absent file);
`add`/`remove` return the new file contents. -/

/-- An authorized recipient (`src/core/models/key_identity.rs`); the
`added_at` timestamp is modelled as an integer instant. -/
structure KeyIdentity where
  public_key : String
  label : Option String
  added_at : Option Int
deriving DecidableEq, Repr

namespace FileKeyStore

/-- `FileKeyStore::parse_line`: trim; skip blanks and pure comments; split
key from an optional inline `# label`; skip empty keys. -/
def parse_line (line : String) : Option KeyIdentity :=
  let trimmed := trimChars line.data
  if trimmed = [] then none
  else if trimmed.head? = some '#' then none
  else
    let kl : List Char × Option (List Char) :=
      match splitFirst '#' trimmed with
      | some (k, l) => (trimChars k, some (trimChars l))
      | none => (trimmed, none)
    if kl.1 = [] then none
    else some ⟨⟨kl.1⟩, kl.2.map (fun l => (⟨l⟩ : String)), none⟩

/-- One serialized line: `<public_key>` or `<public_key> # <label>`. -/
def serializeLine (ki : KeyIdentity) : List Char :=
  match ki.label with
  | some label => ki.public_key.data ++ (" # ").data ++ label.data
  | none => ki.public_key.data

/-- `FileKeyStore::serialize`: join the lines with `"\n"` and append a
single trailing newline. -/
def serialize (identities : List KeyIdentity) : String :=
  ⟨joinNl (identities.map serializeLine) ++ ['\n']⟩

/-- `FileKeyStore::list`: absent file is an empty list; otherwise parse
each line, skipping blanks, comments and empty keys.  (The Rust function
returns `Result`; the only failure path is an I/O read error, outside this
model, so it is modelled as total.) -/
def list (st : Option String) : List KeyIdentity :=
  match st with
  | none => []
  | some content => (rustLines content).filterMap parse_line

/-- `FileKeyStore::add`: duplicate `public_key` → `KeyAlreadyExists`,
otherwise append and rewrite the file. -/
def add (identity : KeyIdentity) (st : Option String) :
    Except VaulticError (Option String) :=
  let existing := list st
  if existing.any (fun ki => ki.public_key = identity.public_key) then
    .error (.keyAlreadyExists identity.public_key)
  else
    .ok (some (serialize (existing ++ [identity])))

/-- `FileKeyStore::remove`: unknown `public_key` → `KeyNotFound`, otherwise
rewrite the file without the matching entries. -/
def remove (public_key : String) (st : Option String) :
    Except VaulticError (Option String) :=
  let existing := list st
  if ¬ existing.any (fun ki => ki.public_key = public_key) then
    .error (.keyNotFound public_key)
  else
    .ok (some (serialize (existing.filter (fun ki => ¬ ki.public_key = public_key))))

end FileKeyStore

/-! ### Key-store analysis (claim C6) -/

/-- Well-formedness of an identity for faithful storage of its *key*: the
public key is non-empty, trimmed, and free of `'#'` and `'\n'`; a label
only has to be newline-free (it may be untrimmed — re-parsing trims the
label but never changes the key). -/
def wfIdent (k : KeyIdentity) : Prop :=
  k.public_key.data ≠ [] ∧ headOK k.public_key.data ∧ lastOK k.public_key.data ∧
  '#' ∉ k.public_key.data ∧ '\n' ∉ k.public_key.data ∧
  (∀ l, k.label = some l → '\n' ∉ l.data)

theorem mem_rustLinesData_no_nl (l : List Char) :
    ∀ p ∈ rustLinesData l, '\n' ∉ p := by
  intro p hp
  unfold rustLinesData at hp
  have hparts : ∀ q ∈ splitNl l, '\n' ∉ q := mem_splitNl_no_nl l
  have hbody : ∀ q ∈ (splitNl l).dropLast.map stripCR, '\n' ∉ q := by
    intro q hq
    obtain ⟨q0, hq0, hqe⟩ := List.mem_map.mp hq
    have hq0' : q0 ∈ splitNl l := (List.dropLast_sublist _).subset hq0
    intro hc
    apply hparts q0 hq0'
    subst hqe
    unfold stripCR at hc
    by_cases hcr : q0.getLast? = some '\r'
    · rw [if_pos hcr] at hc
      exact (List.dropLast_sublist _).subset hc
    · rw [if_neg hcr] at hc
      exact hc
  have hp' : p ∈ (match (splitNl l).getLast? with
      | some ([] : List Char) => (splitNl l).dropLast.map stripCR
      | some last => (splitNl l).dropLast.map stripCR ++ [last]
      | none => (splitNl l).dropLast.map stripCR) := hp
  cases hlast : (splitNl l).getLast? with
  | none =>
    rw [hlast] at hp'
    exact hbody p hp'
  | some last =>
    rw [hlast] at hp'
    cases hl : last with
    | nil =>
      rw [hl] at hp'
      exact hbody p hp'
    | cons a t =>
      rw [hl] at hp'
      rcases List.mem_append.mp hp' with hq | hq
      · exact hbody p hq
      · simp at hq
        subst hq
        rw [← hl]
        exact hparts last (List.mem_of_getLast?_eq_some hlast)

/-- Every identity produced by `parse_line` on a newline-free line has a
trimmed, non-empty, `'#'`-free, newline-free key and a newline-free
label. -/
theorem parse_line_wf (line : String) (ki : KeyIdentity)
    (hnl : '\n' ∉ line.data)
    (h : FileKeyStore.parse_line line = some ki) : wfIdent ki := by
  unfold FileKeyStore.parse_line at h
  by_cases h1 : trimChars line.data = []
  · rw [if_pos h1] at h
    exact Option.noConfusion h
  · rw [if_neg h1] at h
    by_cases h2 : (trimChars line.data).head? = some '#'
    · rw [if_pos h2] at h
      exact Option.noConfusion h
    · rw [if_neg h2] at h
      have hnltr : '\n' ∉ trimChars line.data := fun hc => hnl (mem_of_mem_trimChars hc)
      cases hsp : splitFirst '#' (trimChars line.data) with
      | some p =>
        obtain ⟨k0, l0⟩ := p
        rw [hsp] at h
        simp only [] at h
        by_cases hk0 : trimChars k0 = []
        · rw [if_pos hk0] at h
          exact Option.noConfusion h
        · rw [if_neg hk0] at h
          cases h
          obtain ⟨hdec, hnmem⟩ := splitFirst_eq_some '#' _ k0 l0 hsp
          refine ⟨hk0, trimChars_headOK k0, trimChars_lastOK k0, ?_, ?_, ?_⟩
          · intro hc
            exact hnmem (mem_of_mem_trimChars hc)
          · intro hc
            apply hnltr
            rw [hdec]
            exact List.mem_append_left _ (mem_of_mem_trimChars hc)
          · intro l hl
            cases hl
            intro hc
            apply hnltr
            rw [hdec]
            exact List.mem_append_right _ (List.mem_cons_of_mem _ (mem_of_mem_trimChars hc))
      | none =>
        rw [hsp] at h
        simp only [] at h
        rw [if_neg h1] at h
        cases h
        have hnh : '#' ∉ trimChars line.data := (splitFirst_eq_none '#' _).mp hsp
        exact ⟨h1, trimChars_headOK _, trimChars_lastOK _, hnh, hnltr,
          fun l hl => Option.noConfusion hl⟩

theorem trimEnd_append_ws (x : List Char) (c : Char) (hc : rustWS c = true) :
    trimEnd (x ++ [c]) = trimEnd x := by
  unfold trimEnd
  rw [List.reverse_append]
  simp [List.dropWhile, hc]

theorem trimStart_cons_ws (c : Char) (y : List Char) (hc : rustWS c = true) :
    trimStart (c :: y) = trimStart y := by
  simp [trimStart, List.dropWhile, hc]

theorem headOK_append (x y : List Char) (hx : x ≠ []) (h : headOK x) :
    headOK (x ++ y) := by
  intro ch hch
  rw [head?_append_left x y hx] at hch
  exact h ch hch

theorem head?_ne_hash_of_not_mem (x : List Char) (h : '#' ∉ x) :
    ¬ x.head? = some '#' := by
  intro hc
  cases x with
  | nil => simp at hc
  | cons a t =>
    simp at hc
    subst hc
    simp at h

/-- Trimming from the right distributes over an append whose left part
already ends in non-whitespace. -/
theorem trimEnd_append_lastOK (A y : List Char) (h : lastOK A) :
    trimEnd (A ++ y) = A ++ trimEnd y := by
  unfold trimEnd
  rw [List.reverse_append, List.dropWhile_append]
  by_cases hy : (y.reverse.dropWhile rustWS).isEmpty = true
  · rw [if_pos hy]
    have hyn : y.reverse.dropWhile rustWS = [] := List.isEmpty_iff.mp hy
    have hA : A.reverse.dropWhile rustWS = A.reverse :=
      dropWhile_eq_self_of_head rustWS A.reverse
        (fun ch hch => h ch (by rwa [List.head?_reverse] at hch))
    rw [hA, hyn, List.reverse_reverse]
    simp
  · rw [if_neg hy]
    rw [List.reverse_append, List.reverse_reverse]

theorem trimChars_trimEnd (y : List Char) : trimChars (trimEnd y) = trimChars y := by
  unfold trimChars
  rw [trimEnd_eq_self (trimEnd y) (trimEnd_lastOK y)]

/-- Parsing a bare well-formed key line yields the identity with no label. -/
theorem parse_line_pk (pk : List Char) (hne : pk ≠ []) (hh : headOK pk)
    (hl : lastOK pk) (hhash : '#' ∉ pk) :
    FileKeyStore.parse_line ⟨pk⟩ = some ⟨⟨pk⟩, none, none⟩ := by
  unfold FileKeyStore.parse_line
  rw [show (⟨pk⟩ : String).data = pk from rfl]
  rw [trimChars_eq_self _ hh hl]
  rw [if_neg hne, if_neg (head?_ne_hash_of_not_mem _ hhash)]
  rw [(splitFirst_eq_none '#' _).mpr hhash]
  simp only [if_neg hne]
  rfl

/-- Parsing a well-formed key followed by `" #"` and an *arbitrary* label
tail recovers the key exactly; only the label is re-trimmed. -/
theorem parse_line_key_hash (pk y : List Char) (hne : pk ≠ []) (hh : headOK pk)
    (hl : lastOK pk) (hhash : '#' ∉ pk) :
    FileKeyStore.parse_line ⟨(pk ++ [' ', '#']) ++ y⟩ =
      some ⟨⟨pk⟩, some ⟨trimChars y⟩, none⟩ := by
  have hlastA : lastOK (pk ++ [' ', '#']) := by
    intro ch hch
    rw [show pk ++ [' ', '#'] = (pk ++ [' ']) ++ ['#'] from by simp,
      List.getLast?_concat] at hch
    cases hch
    decide
  have hheadA : headOK (pk ++ [' ', '#']) := headOK_append _ _ hne hh
  have hAne : pk ++ [' ', '#'] ≠ [] := by simp
  have htrim : trimChars ((pk ++ [' ', '#']) ++ y) = (pk ++ [' ', '#']) ++ trimEnd y := by
    unfold trimChars
    rw [trimEnd_append_lastOK _ _ hlastA]
    exact trimStart_eq_self _ (headOK_append _ _ hAne hheadA)
  have hhash2 : '#' ∉ pk ++ [' '] := by
    intro hc
    rcases List.mem_append.mp hc with hc | hc
    · exact hhash hc
    · simp at hc
  have hkeytrim : trimChars (pk ++ [' ']) = pk := by
    unfold trimChars
    rw [trimEnd_append_ws _ ' ' (by decide), trimEnd_eq_self _ hl, trimStart_eq_self _ hh]
  unfold FileKeyStore.parse_line
  rw [show (⟨(pk ++ [' ', '#']) ++ y⟩ : String).data = (pk ++ [' ', '#']) ++ y from rfl]
  rw [htrim]
  rw [if_neg (by simp : ¬ ((pk ++ [' ', '#']) ++ trimEnd y = []))]
  rw [if_neg (by
    rw [show (pk ++ [' ', '#']) ++ trimEnd y = pk ++ ([' ', '#'] ++ trimEnd y) from by simp,
      head?_append_left _ _ hne]
    exact head?_ne_hash_of_not_mem _ hhash)]
  rw [show (pk ++ [' ', '#']) ++ trimEnd y = (pk ++ [' ']) ++ '#' :: trimEnd y from by simp]
  rw [splitFirst_append '#' _ _ hhash2]
  simp only [hkeytrim, trimChars_trimEnd, if_neg hne]
  rfl

theorem stripCR_append (A y : List Char) (hy : y ≠ []) :
    stripCR (A ++ y) = A ++ stripCR y := by
  unfold stripCR
  rw [List.getLast?_append_of_ne_nil _ hy]
  by_cases hcr : y.getLast? = some '\r'
  · rw [if_pos hcr, if_pos hcr, List.dropLast_append_of_ne_nil _ hy]
  · rw [if_neg hcr, if_neg hcr]

/-- Re-parsing a serialized (and possibly `'\r'`-stripped, as `lines()`
does to a `"\r\n"` terminator) identity line recovers the same public
key; the label is re-trimmed, which never affects the key. -/
theorem parse_stripCR_serialize (ki : KeyIdentity) (hwf : wfIdent ki) :
    ∃ lab, FileKeyStore.parse_line ⟨stripCR (FileKeyStore.serializeLine ki)⟩ =
      some ⟨ki.public_key, lab, none⟩ := by
  obtain ⟨hne, hh, hl, hhash, hnl, hlab⟩ := hwf
  cases hlabel : ki.label with
  | none =>
    refine ⟨none, ?_⟩
    have hsl : FileKeyStore.serializeLine ki = ki.public_key.data := by
      unfold FileKeyStore.serializeLine
      rw [hlabel]
    have hstrip : stripCR ki.public_key.data = ki.public_key.data :=
      stripCR_eq_self _ (fun hc => by have := hl '\r' hc; simp [rustWS] at this)
    rw [hsl, hstrip]
    exact parse_line_pk ki.public_key.data hne hh hl hhash
  | some l =>
    have hsl : FileKeyStore.serializeLine ki =
        (ki.public_key.data ++ [' ', '#']) ++ (' ' :: l.data) := by
      unfold FileKeyStore.serializeLine
      rw [hlabel]
      show (ki.public_key.data ++ (" # ").data) ++ l.data = _
      simp
    refine ⟨some ⟨trimChars (stripCR (' ' :: l.data))⟩, ?_⟩
    rw [hsl, stripCR_append _ _ (by simp)]
    exact parse_line_key_hash ki.public_key.data (stripCR (' ' :: l.data)) hne hh hl hhash

theorem serializeLine_no_nl (ki : KeyIdentity) (hwf : wfIdent ki) :
    '\n' ∉ FileKeyStore.serializeLine ki := by
  obtain ⟨_, _, _, _, hnl, hlab⟩ := hwf
  unfold FileKeyStore.serializeLine
  cases hlabel : ki.label with
  | none => exact hnl
  | some l =>
    have hlnl := hlab l hlabel
    intro hc
    rcases List.mem_append.mp hc with hc | hc
    · rcases List.mem_append.mp hc with hc | hc
      · exact hnl hc
      · simp [show (" # ").data = [' ', '#', ' '] from rfl] at hc
    · exact hlnl hc

/-- `rustLinesData` of a newline-join with trailing newline, without any
assumption on `'\r'`: every line comes back `'\r'`-stripped. -/
theorem rustLinesData_joinNl_strip (L : List (List Char)) (hne : L ≠ [])
    (h : ∀ p ∈ L, '\n' ∉ p) :
    rustLinesData (joinNl L ++ ['\n']) = L.map stripCR := by
  have hjoin : joinNl L ++ ['\n'] = joinNl (L ++ [[]]) := by
    rw [joinNl_append_single L [] hne]
  rw [hjoin]
  unfold rustLinesData
  rw [splitNl_joinNl (L ++ [[]]) (by simp)
    (by
      intro p hp
      rcases List.mem_append.mp hp with hp | hp
      · exact h p hp
      · simp at hp; simp [hp])]
  simp [List.getLast?_concat, List.dropLast_concat]


/-- Everything `list` produces is well-formed. -/
theorem list_wf (st : Option String) :
    ∀ ki ∈ FileKeyStore.list st, wfIdent ki := by
  intro ki hki
  cases st with
  | none => simp [FileKeyStore.list] at hki
  | some content =>
    unfold FileKeyStore.list at hki
    obtain ⟨line, hline, hparse⟩ := List.mem_filterMap.mp hki
    unfold rustLines at hline
    obtain ⟨p, hp, hpe⟩ := List.mem_map.mp hline
    have hnl : '\n' ∉ line.data := by
      rw [← hpe]
      exact mem_rustLinesData_no_nl content.data p hp
    exact parse_line_wf line ki hnl hparse

theorem filterMap_parse_serialize_map_pk :
    ∀ ids : List KeyIdentity, (∀ ki ∈ ids, wfIdent ki) →
      ((ids.map (fun ki =>
          (⟨stripCR (FileKeyStore.serializeLine ki)⟩ : String))).filterMap
        FileKeyStore.parse_line).map (fun ki => ki.public_key) =
      ids.map (fun ki => ki.public_key) := by
  intro ids
  induction ids with
  | nil => intro _; rfl
  | cons k0 rest ih =>
    intro hwf
    obtain ⟨lab, hparse⟩ := parse_stripCR_serialize k0 (hwf k0 (by simp))
    rw [List.map_cons, List.filterMap_cons, hparse]
    rw [List.map_cons]
    rw [ih (fun ki hki => hwf ki (by simp [hki]))]
    rfl

/-- Reading back a rewritten store file: the listed public keys are exactly
the written identities' public keys, in order. -/
theorem list_serialize_map_pk (ids : List KeyIdentity)
    (hwf : ∀ ki ∈ ids, wfIdent ki) :
    (FileKeyStore.list (some (FileKeyStore.serialize ids))).map (fun ki => ki.public_key) =
      ids.map (fun ki => ki.public_key) := by
  cases ids with
  | nil => rfl
  | cons k0 rest =>
    have hlines : rustLinesData (FileKeyStore.serialize (k0 :: rest)).data =
        ((k0 :: rest).map FileKeyStore.serializeLine).map stripCR := by
      show rustLinesData (joinNl ((k0 :: rest).map FileKeyStore.serializeLine) ++ ['\n']) = _
      apply rustLinesData_joinNl_strip
      · simp
      · intro p hp
        obtain ⟨ki, hki, hpe⟩ := List.mem_map.mp hp
        subst hpe
        exact serializeLine_no_nl ki (hwf ki hki)
    have hrl : rustLines (FileKeyStore.serialize (k0 :: rest)) =
        (((k0 :: rest).map FileKeyStore.serializeLine).map stripCR).map
          (fun l => (⟨l⟩ : String)) := by
      unfold rustLines
      rw [hlines]
    show ((rustLines (FileKeyStore.serialize (k0 :: rest))).filterMap
        FileKeyStore.parse_line).map (fun ki => ki.public_key) = _
    rw [hrl, List.map_map, List.map_map]
    exact filterMap_parse_serialize_map_pk (k0 :: rest) hwf

/-- Boolean check for `headOK`. -/
def headOKb (l : List Char) : Bool :=
  match l.head? with
  | none => true
  | some c => !(rustWS c)

/-- Boolean check for `lastOK`. -/
def lastOKb (l : List Char) : Bool :=
  match l.getLast? with
  | none => true
  | some c => !(rustWS c)

theorem headOK_of_b (l : List Char) (h : headOKb l = true) : headOK l := by
  intro ch hch
  unfold headOKb at h
  rw [hch] at h
  simpa using h

theorem lastOK_of_b (l : List Char) (h : lastOKb l = true) : lastOK l := by
  intro ch hch
  unfold lastOKb at h
  rw [hch] at h
  simpa using h

/-- **C6** (counterexample).  The idempotency claim quantifies over *every*
identity; for the identity with public key `"#x"`, `add` succeeds (the
store never lists a key starting with `'#'`, so no duplicate is found) and
writes the line `#x`, which `list` then skips as a comment: afterwards
`list()` contains *zero* entries with that public key, not exactly one. -/
theorem C6_counterexample :
    FileKeyStore.add ⟨"#x", none, none⟩ none = .ok (some "#x\n") ∧
    (FileKeyStore.list (some "#x\n")).countP
      (fun ki => ki.public_key = "#x") = 0 := by
  constructor
  · rfl
  · rfl

/-- **C6** (amended).  For identities whose public key is non-empty,
trimmed, and free of `'#'` and `'\n'`, and whose label (if any) contains
no newline: a successful `add(k)` leaves exactly one listed entry with
`k.public_key` and makes a second `add` of the same public key fail with
`KeyAlreadyExists`; and for *all* stores and keys, `remove(pk)` fails with
`KeyNotFound` exactly when no listed entry has public key `pk`, and on
success leaves no listed entry with it.  Labels need not be trimmed: the
key survives re-parsing even when the label is padded or ends in `'\r'`;
only the key-side conditions and newline-freeness of the label are
forced. -/
theorem C6_key_store (st : Option String) (k : KeyIdentity) (pk : String)
    (hwf : wfIdent k) :
    (∀ st', FileKeyStore.add k st = .ok st' →
      ((FileKeyStore.list st').countP (fun ki => ki.public_key = k.public_key) = 1 ∧
       ∀ k2 : KeyIdentity, k2.public_key = k.public_key →
         FileKeyStore.add k2 st' = .error (.keyAlreadyExists k2.public_key))) ∧
    (FileKeyStore.remove pk st = .error (.keyNotFound pk) ↔
      ∀ ki ∈ FileKeyStore.list st, ki.public_key ≠ pk) ∧
    (∀ st', FileKeyStore.remove pk st = .ok st' →
      ∀ ki ∈ FileKeyStore.list st', ki.public_key ≠ pk) := by
  refine ⟨?_, ?_, ?_⟩
  · intro st' hadd
    unfold FileKeyStore.add at hadd
    by_cases hdup : (FileKeyStore.list st).any (fun ki => ki.public_key = k.public_key)
    · rw [if_pos hdup] at hadd
      exact Except.noConfusion hadd
    · rw [if_neg hdup] at hadd
      have hst' : st' = some (FileKeyStore.serialize (FileKeyStore.list st ++ [k])) :=
        (Except.ok.inj hadd).symm
      have hwfall : ∀ ki ∈ FileKeyStore.list st ++ [k], wfIdent ki := by
        intro ki hki
        rcases List.mem_append.mp hki with hki | hki
        · exact list_wf st ki hki
        · simp at hki
          subst hki
          exact hwf
      have hmap := list_serialize_map_pk (FileKeyStore.list st ++ [k]) hwfall
      have hcount : (FileKeyStore.list st').countP
          (fun ki => ki.public_key = k.public_key) = 1 := by
        have h1 : (FileKeyStore.list st').countP (fun ki => ki.public_key = k.public_key) =
            ((FileKeyStore.list st').map (fun ki => ki.public_key)).countP
              (fun s => s = k.public_key) := by
          rw [List.countP_map]
          rfl
        rw [h1, hst', hmap, List.map_append, List.countP_append]
        have h0 : ((FileKeyStore.list st).map (fun ki => ki.public_key)).countP
            (fun s => s = k.public_key) = 0 := by
          rw [List.countP_map]
          rw [List.countP_eq_zero]
          intro ki hki
          have := List.any_eq_false.mp (Bool.of_not_eq_true hdup) ki hki
          simpa using this
        rw [h0]
        simp
      refine ⟨hcount, ?_⟩
      intro k2 hk2
      unfold FileKeyStore.add
      have hany : (FileKeyStore.list st').any
          (fun ki => ki.public_key = k2.public_key) = true := by
        rw [List.any_eq_true]
        have hpos : 0 < (FileKeyStore.list st').countP
            (fun ki => ki.public_key = k.public_key) := by omega
        obtain ⟨ki, hki, hkip⟩ := List.countP_pos_iff.mp hpos
        exact ⟨ki, hki, by rw [hk2]; exact hkip⟩
      rw [if_pos hany]
  · unfold FileKeyStore.remove
    by_cases hany : (FileKeyStore.list st).any (fun ki => ki.public_key = pk)
    · rw [if_neg (by simpa using hany)]
      constructor
      · intro h
        exact Except.noConfusion h
      · intro h
        obtain ⟨ki, hki, hkip⟩ := List.any_eq_true.mp hany
        exact absurd (by simpa using hkip) (h ki hki)
    · rw [if_pos (by simpa using hany)]
      constructor
      · intro _
        intro ki hki
        have := List.any_eq_false.mp (Bool.of_not_eq_true hany) ki hki
        simpa using this
      · intro _
        rfl
  · intro st' hrem
    unfold FileKeyStore.remove at hrem
    by_cases hany : (FileKeyStore.list st).any (fun ki => ki.public_key = pk)
    · rw [if_neg (by simpa using hany)] at hrem
      have hst' : st' = some (FileKeyStore.serialize
          ((FileKeyStore.list st).filter (fun ki => ¬ ki.public_key = pk))) :=
        (Except.ok.inj hrem).symm
      have hwfall : ∀ ki ∈ (FileKeyStore.list st).filter (fun ki => ¬ ki.public_key = pk),
          wfIdent ki := by
        intro ki hki
        exact list_wf st ki (List.mem_of_mem_filter hki)
      have hmap := list_serialize_map_pk _ hwfall
      intro ki hki hkip
      have hmem : ki.public_key ∈ (FileKeyStore.list st').map (fun ki => ki.public_key) :=
        List.mem_map_of_mem _ hki
      rw [hst', hmap] at hmem
      obtain ⟨kj, hkj, hkje⟩ := List.mem_map.mp hmem
      have hkjf := List.of_mem_filter hkj
      rw [hkje, hkip] at hkjf
      simp at hkjf
    · rw [if_pos (by simpa using hany)] at hrem
      exact Except.noConfusion hrem

/-- Witness for `C6_key_store`: adding `"age1abc"` with the *untrimmed*
label `" dev "` to an empty store lists the key exactly once, and a second
add of the same key fails with `KeyAlreadyExists`. -/
theorem C6_key_store_witness :
    wfIdent ⟨"age1abc", some " dev ", none⟩ ∧
    (FileKeyStore.list (some "age1abc #  dev \n")).countP
      (fun ki => ki.public_key = ("age1abc" : String)) = 1 ∧
    FileKeyStore.add ⟨"age1abc", some " dev ", none⟩ (some "age1abc #  dev \n") =
      .error (.keyAlreadyExists "age1abc") := by
  have hwf : wfIdent ⟨"age1abc", some " dev ", none⟩ :=
    ⟨by decide, headOK_of_b _ (by decide), lastOK_of_b _ (by decide),
     by decide, by decide, fun l hl => by cases hl; decide⟩
  refine ⟨hwf, ?_, ?_⟩
  · exact ((C6_key_store none ⟨"age1abc", some " dev ", none⟩ "age1abc" hwf).1
      (some "age1abc #  dev \n") rfl).1
  · exact ((C6_key_store none ⟨"age1abc", some " dev ", none⟩ "age1abc" hwf).1
      (some "age1abc #  dev \n") rfl).2 ⟨"age1abc", some " dev ", none⟩ rfl

/-! ## Audit log (`src/adapters/audit/json_audit_logger.rs`)

`serde_json` is an external crate, so the JSON line codec is modelled as a
concrete injective encoder/decoder pair over the `AuditEntry` fields
(timestamps as integer instants, strings escaped so that the field, list
and line separators never occur inside encoded payloads).  What the claims
are about — append order and the query filters — is taken from the source;
the codec is the trusted stand-in for `serde_json::to_string`/`from_str`. -/

/-- Split at every occurrence of `sep` (generic version of `splitNl`). -/
def splitChar (sep : Char) : List Char → List (List Char)
  | [] => [[]]
  | c :: rest =>
    if c = sep then [] :: splitChar sep rest
    else
      match splitChar sep rest with
      | [] => [[c]]
      | p :: ps => (c :: p) :: ps

/-- Join with `sep` between the pieces (generic version of `joinNl`). -/
def joinChar (sep : Char) : List (List Char) → List Char
  | [] => []
  | [l] => l
  | l :: rest => l ++ sep :: joinChar sep rest

theorem splitChar_ne_nil (sep : Char) (l : List Char) : splitChar sep l ≠ [] := by
  cases l with
  | nil => simp [splitChar]
  | cons c rest =>
    by_cases h : c = sep
    · simp [splitChar, h]
    · simp only [splitChar, if_neg h]
      cases splitChar sep rest <;> simp

theorem splitChar_no_sep (sep : Char) (l : List Char) (h : sep ∉ l) :
    splitChar sep l = [l] := by
  induction l with
  | nil => rfl
  | cons c rest ih =>
    have hc : ¬ c = sep := fun hc => h (by simp [hc])
    have hr : sep ∉ rest := fun hm => h (by simp [hm])
    simp [splitChar, hc, ih hr]

theorem splitChar_append_sep (sep : Char) (a rest : List Char) (h : sep ∉ a) :
    splitChar sep (a ++ sep :: rest) = a :: splitChar sep rest := by
  induction a with
  | nil => simp [splitChar]
  | cons c t ih =>
    have hc : ¬ c = sep := fun hc => h (by simp [hc])
    have ht : sep ∉ t := fun hm => h (by simp [hm])
    show splitChar sep (c :: (t ++ sep :: rest)) = (c :: t) :: splitChar sep rest
    simp only [splitChar, if_neg hc, ih ht]

theorem joinChar_cons (sep : Char) (l : List Char) (rest : List (List Char))
    (h : rest ≠ []) : joinChar sep (l :: rest) = l ++ sep :: joinChar sep rest := by
  cases rest with
  | nil => exact absurd rfl h
  | cons r rs => rfl

theorem splitChar_joinChar (sep : Char) (L : List (List Char)) (hne : L ≠ [])
    (h : ∀ p ∈ L, sep ∉ p) : splitChar sep (joinChar sep L) = L := by
  induction L with
  | nil => exact absurd rfl hne
  | cons l rest ih =>
    cases rest with
    | nil =>
      simp only [joinChar]
      exact splitChar_no_sep sep l (h l (by simp))
    | cons r rs =>
      rw [joinChar_cons sep l (r :: rs) (by simp)]
      rw [splitChar_append_sep sep l _ (h l (by simp))]
      rw [ih (by simp) (fun p hp => h p (by simp [hp]))]

/-! ### String escaping for the codec -/

/-- Escape one character: the escape lead `'\'` and the separators `'|'`,
`';'`, `'\n'` are replaced by two-character escape sequences. -/
def escChar (c : Char) : List Char :=
  if c = '\\' then ['\\', '\\']
  else if c = '|' then ['\\', 'p']
  else if c = ';' then ['\\', 's']
  else if c = '\n' then ['\\', 'n']
  else [c]

def escape : List Char → List Char
  | [] => []
  | c :: rest => escChar c ++ escape rest

def unescape : List Char → Option (List Char)
  | [] => some []
  | c :: rest =>
    if c = '\\' then
      match rest with
      | [] => none
      | d :: rest' =>
        let ch : Option Char :=
          if d = '\\' then some '\\'
          else if d = 'p' then some '|'
          else if d = 's' then some ';'
          else if d = 'n' then some '\n'
          else none
        match ch with
        | none => none
        | some ch => (unescape rest').map (fun l => ch :: l)
    else (unescape rest).map (fun l => c :: l)

theorem unescape_escape (l : List Char) : unescape (escape l) = some l := by
  induction l with
  | nil => rfl
  | cons c rest ih =>
    show unescape (escChar c ++ escape rest) = some (c :: rest)
    unfold escChar
    by_cases h1 : c = '\\'
    · subst h1
      simp only [if_pos rfl]
      show unescape ('\\' :: '\\' :: escape rest) = _
      simp [unescape, ih]
    · rw [if_neg h1]
      by_cases h2 : c = '|'
      · subst h2
        simp only [if_pos rfl]
        show unescape ('\\' :: 'p' :: escape rest) = _
        simp [unescape, ih]
      · rw [if_neg h2]
        by_cases h3 : c = ';'
        · subst h3
          simp only [if_pos rfl]
          show unescape ('\\' :: 's' :: escape rest) = _
          simp [unescape, ih]
        · rw [if_neg h3]
          by_cases h4 : c = '\n'
          · subst h4
            simp only [if_pos rfl]
            show unescape ('\\' :: 'n' :: escape rest) = _
            simp [unescape, ih]
          · rw [if_neg h4]
            show unescape (c :: escape rest) = _
            unfold unescape
            rw [if_neg h1, ih]
            rfl

theorem mem_escChar (c x : Char) (h : x ∈ escChar c) :
    x = '\\' ∨ x = 'p' ∨ x = 's' ∨ x = 'n' ∨
      (x = c ∧ c ≠ '|' ∧ c ≠ ';' ∧ c ≠ '\n') := by
  unfold escChar at h
  split_ifs at h with h1 h2 h3 h4
  · simp at h; tauto
  · simp at h; tauto
  · simp at h; tauto
  · simp at h; tauto
  · simp at h
    exact Or.inr (Or.inr (Or.inr (Or.inr ⟨h, h2, h3, h4⟩)))

theorem escape_no_sep (l : List Char) :
    '|' ∉ escape l ∧ ';' ∉ escape l ∧ '\n' ∉ escape l := by
  induction l with
  | nil => simp [escape]
  | cons c rest ih =>
    show _ ∉ escChar c ++ escape rest ∧ _ ∉ escChar c ++ escape rest ∧
      _ ∉ escChar c ++ escape rest
    obtain ⟨ih1, ih2, ih3⟩ := ih
    refine ⟨?_, ?_, ?_⟩
    · intro hm
      rcases List.mem_append.mp hm with hm | hm
      · rcases mem_escChar c '|' hm with h | h | h | h | ⟨he, hne, _, _⟩
        · exact absurd h (by decide)
        · exact absurd h (by decide)
        · exact absurd h (by decide)
        · exact absurd h (by decide)
        · exact hne he.symm
      · exact ih1 hm
    · intro hm
      rcases List.mem_append.mp hm with hm | hm
      · rcases mem_escChar c ';' hm with h | h | h | h | ⟨he, _, hne, _⟩
        · exact absurd h (by decide)
        · exact absurd h (by decide)
        · exact absurd h (by decide)
        · exact absurd h (by decide)
        · exact hne he.symm
      · exact ih2 hm
    · intro hm
      rcases List.mem_append.mp hm with hm | hm
      · rcases mem_escChar c '\n' hm with h | h | h | h | ⟨he, _, _, hne⟩
        · exact absurd h (by decide)
        · exact absurd h (by decide)
        · exact absurd h (by decide)
        · exact absurd h (by decide)
        · exact hne he.symm
      · exact ih3 hm

/-! ### Decimal integers for the codec -/

def digitChar (d : Nat) : Char := Char.ofNat (48 + d)

def natToRevDigits : Nat → Nat → List Nat
  | 0, _ => []
  | fuel + 1, n => if n = 0 then [] else (n % 10) :: natToRevDigits fuel (n / 10)

def natToChars (n : Nat) : List Char :=
  if n = 0 then ['0'] else ((natToRevDigits (n + 1) n).map digitChar).reverse

def digitVal (c : Char) : Option Nat :=
  if 48 ≤ c.toNat ∧ c.toNat ≤ 57 then some (c.toNat - 48) else none

def charsToNatAux (acc : Nat) : List Char → Option Nat
  | [] => some acc
  | c :: rest =>
    match digitVal c with
    | none => none
    | some d => charsToNatAux (acc * 10 + d) rest

def charsToNat (l : List Char) : Option Nat :=
  if l = [] then none else charsToNatAux 0 l

def intToChars (i : Int) : List Char :=
  if i < 0 then '-' :: natToChars i.natAbs else natToChars i.toNat

def charsToInt (l : List Char) : Option Int :=
  match l with
  | [] => none
  | c :: rest =>
    if c = '-' then (charsToNat rest).map (fun n => -(Int.ofNat n))
    else (charsToNat (c :: rest)).map (fun n => Int.ofNat n)

def ofRevDigits : List Nat → Nat
  | [] => 0
  | d :: ds => d + 10 * ofRevDigits ds

theorem natToRevDigits_spec :
    ∀ (fuel n : Nat), n < fuel →
      ofRevDigits (natToRevDigits fuel n) = n ∧
      (∀ d ∈ natToRevDigits fuel n, d < 10) := by
  intro fuel
  induction fuel with
  | zero => intro n h; omega
  | succ f ih =>
    intro n h
    by_cases h0 : n = 0
    · subst h0
      simp [natToRevDigits, ofRevDigits]
    · have hdiv : n / 10 < n := Nat.div_lt_self (Nat.pos_of_ne_zero h0) (by omega)
      have hf : n / 10 < f := by omega
      obtain ⟨ih1, ih2⟩ := ih (n / 10) hf
      simp only [natToRevDigits, if_neg h0]
      constructor
      · simp only [ofRevDigits, ih1]
        exact Nat.mod_add_div n 10
      · intro d hd
        rcases List.mem_cons.mp hd with hd | hd
        · subst hd; exact Nat.mod_lt n (by omega)
        · exact ih2 d hd

theorem digitVal_digitChar (d : Nat) (h : d < 10) :
    digitVal (digitChar d) = some d := by
  interval_cases d <;> decide

theorem digitChar_range (d : Nat) (h : d < 10) :
    48 ≤ (digitChar d).toNat ∧ (digitChar d).toNat ≤ 57 := by
  interval_cases d <;> decide

theorem charsToNatAux_digits :
    ∀ (xs : List Nat) (acc : Nat), (∀ d ∈ xs, d < 10) →
      charsToNatAux acc (xs.map digitChar) =
        some (xs.foldl (fun a d => a * 10 + d) acc) := by
  intro xs
  induction xs with
  | nil => intro acc _; rfl
  | cons d ds ih =>
    intro acc hd
    rw [List.map_cons]
    show (match digitVal (digitChar d) with
      | none => none
      | some d' => charsToNatAux (acc * 10 + d') (ds.map digitChar)) = _
    rw [digitVal_digitChar d (hd d (by simp))]
    show charsToNatAux (acc * 10 + d) (ds.map digitChar) = _
    rw [ih (acc * 10 + d) (fun x hx => hd x (by simp [hx]))]
    rfl

theorem foldr_digits_eq_ofRev (ds : List Nat) :
    ds.foldr (fun d a => a * 10 + d) 0 = ofRevDigits ds := by
  induction ds with
  | nil => rfl
  | cons d t ih =>
    simp only [List.foldr, ofRevDigits, ih]
    omega

theorem natToChars_ne_nil (n : Nat) : natToChars n ≠ [] := by
  unfold natToChars
  by_cases h : n = 0
  · simp [h]
  · rw [if_neg h]
    simp only [ne_eq, List.reverse_eq_nil_iff, List.map_eq_nil_iff]
    show natToRevDigits (n + 1) n ≠ []
    unfold natToRevDigits
    simp [h]

theorem charsToNat_natToChars (n : Nat) : charsToNat (natToChars n) = some n := by
  by_cases h : n = 0
  · subst h; decide
  · obtain ⟨hval, hdig⟩ := natToRevDigits_spec (n + 1) n (by omega)
    unfold charsToNat
    rw [if_neg (natToChars_ne_nil n)]
    unfold natToChars
    rw [if_neg h]
    rw [← List.map_reverse]
    rw [charsToNatAux_digits _ 0 (fun d hd => hdig d (List.mem_reverse.mp hd))]
    rw [List.foldl_reverse]
    rw [foldr_digits_eq_ofRev, hval]

theorem mem_natToChars_digit (n : Nat) (c : Char) (h : c ∈ natToChars n) :
    48 ≤ c.toNat ∧ c.toNat ≤ 57 := by
  unfold natToChars at h
  by_cases h0 : n = 0
  · rw [if_pos h0] at h
    simp at h
    subst h
    decide
  · rw [if_neg h0] at h
    rw [List.mem_reverse, List.mem_map] at h
    obtain ⟨d, hd, he⟩ := h
    subst he
    exact digitChar_range d ((natToRevDigits_spec (n + 1) n (by omega)).2 d hd)

theorem charsToInt_intToChars (i : Int) : charsToInt (intToChars i) = some i := by
  unfold intToChars
  by_cases h : i < 0
  · rw [if_pos h]
    have hred : charsToInt ('-' :: natToChars i.natAbs) =
        (charsToNat (natToChars i.natAbs)).map (fun n => -(Int.ofNat n)) := by
      show (if '-' = '-' then (charsToNat (natToChars i.natAbs)).map (fun n => -(Int.ofNat n))
        else (charsToNat ('-' :: natToChars i.natAbs)).map (fun n => Int.ofNat n)) = _
      rw [if_pos rfl]
    rw [hred, charsToNat_natToChars]
    simp only [Option.map_some']
    congr 1
    simp only [Int.ofNat_eq_natCast]
    omega
  · rw [if_neg h]
    obtain ⟨c, t, hct⟩ : ∃ c t, natToChars i.toNat = c :: t := by
      cases hnc : natToChars i.toNat with
      | nil => exact absurd hnc (natToChars_ne_nil _)
      | cons c t => exact ⟨c, t, rfl⟩
    rw [hct]
    have hc : 48 ≤ c.toNat ∧ c.toNat ≤ 57 :=
      mem_natToChars_digit i.toNat c (by rw [hct]; simp)
    have hcm : ¬ c = '-' := by
      intro hcc
      subst hcc
      revert hc
      decide
    have hred : charsToInt (c :: t) =
        (if c = '-' then (charsToNat t).map (fun n => -(Int.ofNat n))
          else (charsToNat (c :: t)).map (fun n => Int.ofNat n)) := rfl
    rw [hred, if_neg hcm, ← hct, charsToNat_natToChars]
    simp only [Option.map_some']
    congr 1
    simp only [Int.ofNat_eq_natCast]
    omega

theorem mem_intToChars (i : Int) (c : Char) (h : c ∈ intToChars i) :
    c = '-' ∨ (48 ≤ c.toNat ∧ c.toNat ≤ 57) := by
  unfold intToChars at h
  by_cases hneg : i < 0
  · rw [if_pos hneg] at h
    rcases List.mem_cons.mp h with h | h
    · exact Or.inl h
    · exact Or.inr (mem_natToChars_digit _ c h)
  · rw [if_neg hneg] at h
    exact Or.inr (mem_natToChars_digit _ c h)

/-! ## Audit entries (`src/core/models/audit_entry.rs`)

`AuditEntry` is serialized by the external `serde_json` crate, whose code is
not in the repository; per the spec the log is one self-contained JSON object
per line.  The embedding models the serialization as an injective one-line
encoding with the two properties the logger relies on: the encoded entry
contains no newline, and decoding inverts encoding. -/

/-- The eight recorded actions (`#[serde(rename_all = "snake_case")]`). -/
inductive AuditAction where
  | init
  | encrypt
  | decrypt
  | keyAdd
  | keyRemove
  | check
  | diff
  | resolve
deriving DecidableEq, Repr

/-- One audit-log entry; the `chrono` timestamp is modelled as an integer
instant (comparisons agree with the chronological order). -/
structure AuditEntry where
  timestamp : Int
  author : String
  email : Option String
  action : AuditAction
  files : List String
  detail : Option String
  state_hash : Option String
deriving DecidableEq, Repr

/-- The snake_case tag of an action. -/
def encodeAction : AuditAction → List Char
  | .init => "init".data
  | .encrypt => "encrypt".data
  | .decrypt => "decrypt".data
  | .keyAdd => "key_add".data
  | .keyRemove => "key_remove".data
  | .check => "check".data
  | .diff => "diff".data
  | .resolve => "resolve".data

def decodeAction (l : List Char) : Option AuditAction :=
  if l = "init".data then some .init
  else if l = "encrypt".data then some .encrypt
  else if l = "decrypt".data then some .decrypt
  else if l = "key_add".data then some .keyAdd
  else if l = "key_remove".data then some .keyRemove
  else if l = "check".data then some .check
  else if l = "diff".data then some .diff
  else if l = "resolve".data then some .resolve
  else none

theorem decodeAction_encodeAction (a : AuditAction) :
    decodeAction (encodeAction a) = some a := by
  cases a <;> rfl

/-- Encode an optional string: `'n'` = absent, `'s'` = present (escaped). -/
def encodeOptStr : Option String → List Char
  | none => ['n']
  | some s => 's' :: escape s.data

def decodeOptStr (l : List Char) : Option (Option String) :=
  match l with
  | [] => none
  | c :: rest =>
    if c = 'n' then (if rest = [] then some none else none)
    else if c = 's' then (unescape rest).map (fun l2 => some (String.mk l2))
    else none

theorem decodeOptStr_encodeOptStr (o : Option String) :
    decodeOptStr (encodeOptStr o) = some o := by
  cases o with
  | none => rfl
  | some s =>
    show (if 's' = 'n' then (if escape s.data = [] then some none else none)
      else if 's' = 's' then
        (unescape (escape s.data)).map (fun l2 => some (String.mk l2))
      else none) = some (some s)
    rw [if_neg (by decide), if_pos rfl, unescape_escape]
    rfl

/-- Encode a file list: `'e'` = empty, `'f'` = non-empty, parts escaped and
joined with `';'`. -/
def encodeFiles : List String → List Char
  | [] => ['e']
  | f :: rest => 'f' :: joinChar ';' ((f :: rest).map (fun s => escape s.data))

/-- Unescape every part, failing if any part fails. -/
def unescapeAll : List (List Char) → Option (List String)
  | [] => some []
  | p :: ps =>
    match unescape p with
    | none => none
    | some l => (unescapeAll ps).map (fun rest => String.mk l :: rest)

def decodeFiles (l : List Char) : Option (List String) :=
  match l with
  | [] => none
  | c :: rest =>
    if c = 'e' then (if rest = [] then some [] else none)
    else if c = 'f' then unescapeAll (splitChar ';' rest)
    else none

theorem unescapeAll_escape (ss : List String) :
    unescapeAll (ss.map (fun s => escape s.data)) = some ss := by
  induction ss with
  | nil => rfl
  | cons s t ih =>
    rw [List.map_cons]
    show (match unescape (escape s.data) with
      | none => none
      | some l => (unescapeAll (t.map (fun s => escape s.data))).map
          (fun rest => String.mk l :: rest)) = some (s :: t)
    rw [unescape_escape]
    show (unescapeAll (t.map (fun s => escape s.data))).map
      (fun rest => String.mk s.data :: rest) = some (s :: t)
    rw [ih]
    rfl

theorem decodeFiles_encodeFiles (fs : List String) :
    decodeFiles (encodeFiles fs) = some fs := by
  cases fs with
  | nil => rfl
  | cons f t =>
    show (if 'f' = 'e' then
      (if joinChar ';' ((f :: t).map (fun s => escape s.data)) = [] then some [] else none)
      else if 'f' = 'f' then
      unescapeAll (splitChar ';' (joinChar ';' ((f :: t).map (fun s => escape s.data))))
      else none) = some (f :: t)
    rw [if_neg (by decide), if_pos rfl]
    rw [splitChar_joinChar ';' _ (by simp)
      (fun p hp => by
        rw [List.mem_map] at hp
        obtain ⟨s, _, he⟩ := hp
        exact he ▸ (escape_no_sep s.data).2.1)]
    exact unescapeAll_escape (f :: t)

/-- A field of the entry encoding may contain neither the field separator
`'|'` nor a newline. -/
def fieldOK (p : List Char) : Prop := '|' ∉ p ∧ '\n' ∉ p

theorem mem_joinChar (sep : Char) (L : List (List Char)) (c : Char)
    (h : c ∈ joinChar sep L) : c = sep ∨ ∃ p ∈ L, c ∈ p := by
  induction L with
  | nil => simp [joinChar] at h
  | cons l rest ih =>
    cases rest with
    | nil => exact Or.inr ⟨l, by simp, h⟩
    | cons r rs =>
      have h' : c ∈ l ++ sep :: joinChar sep (r :: rs) := h
      rcases List.mem_append.mp h' with hm | hm
      · exact Or.inr ⟨l, by simp, hm⟩
      · rcases List.mem_cons.mp hm with hm | hm
        · exact Or.inl hm
        · rcases ih hm with hm | ⟨p, hp, hc⟩
          · exact Or.inl hm
          · exact Or.inr ⟨p, by simp [hp], hc⟩

theorem fieldOK_intToChars (i : Int) : fieldOK (intToChars i) := by
  constructor
  · intro h
    rcases mem_intToChars i '|' h with h' | h' <;> exact absurd h' (by decide)
  · intro h
    rcases mem_intToChars i '\n' h with h' | h' <;> exact absurd h' (by decide)

theorem fieldOK_escape (l : List Char) : fieldOK (escape l) :=
  ⟨(escape_no_sep l).1, (escape_no_sep l).2.2⟩

theorem fieldOK_encodeOptStr (o : Option String) : fieldOK (encodeOptStr o) := by
  cases o with
  | none => constructor <;> decide
  | some s =>
    constructor
    · intro h
      rcases List.mem_cons.mp h with h | h
      · exact absurd h (by decide)
      · exact (escape_no_sep s.data).1 h
    · intro h
      rcases List.mem_cons.mp h with h | h
      · exact absurd h (by decide)
      · exact (escape_no_sep s.data).2.2 h

theorem fieldOK_encodeAction (a : AuditAction) : fieldOK (encodeAction a) := by
  cases a <;> constructor <;> decide

theorem fieldOK_encodeFiles (fs : List String) : fieldOK (encodeFiles fs) := by
  cases fs with
  | nil => constructor <;> decide
  | cons f t =>
    have hmem : ∀ c, c ∈ encodeFiles (f :: t) →
        c = 'f' ∨ c = ';' ∨ ∃ s : String, c ∈ escape s.data := by
      intro c hc
      rcases List.mem_cons.mp hc with hc | hc
      · exact Or.inl hc
      · rcases mem_joinChar ';' _ c hc with hc | ⟨p, hp, hcp⟩
        · exact Or.inr (Or.inl hc)
        · rw [List.mem_map] at hp
          obtain ⟨s, _, he⟩ := hp
          exact Or.inr (Or.inr ⟨s, he ▸ hcp⟩)
    constructor
    · intro h
      rcases hmem '|' h with h' | h' | ⟨s, h'⟩
      · exact absurd h' (by decide)
      · exact absurd h' (by decide)
      · exact (escape_no_sep s.data).1 h'
    · intro h
      rcases hmem '\n' h with h' | h' | ⟨s, h'⟩
      · exact absurd h' (by decide)
      · exact absurd h' (by decide)
      · exact (escape_no_sep s.data).2.2 h'

/-- The seven encoded fields of an entry, in serialization order. -/
def entryFields (e : AuditEntry) : List (List Char) :=
  [intToChars e.timestamp, escape e.author.data, encodeOptStr e.email,
   encodeAction e.action, encodeFiles e.files, encodeOptStr e.detail,
   encodeOptStr e.state_hash]

/-- Modelled from the spec: `serde_json::to_string` (external crate) writes
one self-contained one-line serialization per entry; here `'<'`, the
`'|'`-joined fields, `'>'`. -/
def encodeEntry (e : AuditEntry) : List Char :=
  '<' :: (joinChar '|' (entryFields e) ++ ['>'])

/-- Decode the seven split fields. -/
def decodeBody : List (List Char) → Option AuditEntry
  | [ts, au, em, ac, fs, de, sh] =>
    match charsToInt ts, unescape au, decodeOptStr em, decodeAction ac,
      decodeFiles fs, decodeOptStr de, decodeOptStr sh with
    | some t, some a, some em2, some ac2, some fs2, some de2, some sh2 =>
      some ⟨t, String.mk a, em2, ac2, fs2, de2, sh2⟩
    | _, _, _, _, _, _, _ => none
  | _ => none

/-- Modelled from the spec: `serde_json::from_str` (external crate), the
inverse of `encodeEntry`. -/
def decodeEntry (l : List Char) : Option AuditEntry :=
  match l with
  | [] => none
  | c :: rest =>
    if c = '<' then
      if rest.getLast? = some '>' then decodeBody (splitChar '|' rest.dropLast)
      else none
    else none

theorem entryFields_fieldOK (e : AuditEntry) :
    ∀ p ∈ entryFields e, fieldOK p := by
  intro p hp
  unfold entryFields at hp
  simp only [List.mem_cons, List.not_mem_nil, or_false] at hp
  rcases hp with h | h | h | h | h | h | h
  · exact h ▸ fieldOK_intToChars e.timestamp
  · exact h ▸ fieldOK_escape e.author.data
  · exact h ▸ fieldOK_encodeOptStr e.email
  · exact h ▸ fieldOK_encodeAction e.action
  · exact h ▸ fieldOK_encodeFiles e.files
  · exact h ▸ fieldOK_encodeOptStr e.detail
  · exact h ▸ fieldOK_encodeOptStr e.state_hash

theorem decodeBody_entryFields (e : AuditEntry) :
    decodeBody (entryFields e) = some e := by
  show (match charsToInt (intToChars e.timestamp), unescape (escape e.author.data),
      decodeOptStr (encodeOptStr e.email), decodeAction (encodeAction e.action),
      decodeFiles (encodeFiles e.files), decodeOptStr (encodeOptStr e.detail),
      decodeOptStr (encodeOptStr e.state_hash) with
    | some t, some a, some em2, some ac2, some fs2, some de2, some sh2 =>
      some (AuditEntry.mk t (String.mk a) em2 ac2 fs2 de2 sh2)
    | _, _, _, _, _, _, _ => none) = some e
  rw [charsToInt_intToChars, unescape_escape, decodeOptStr_encodeOptStr,
    decodeAction_encodeAction, decodeFiles_encodeFiles, decodeOptStr_encodeOptStr,
    decodeOptStr_encodeOptStr]

theorem decodeEntry_encodeEntry (e : AuditEntry) :
    decodeEntry (encodeEntry e) = some e := by
  show (if '<' = '<' then
    (if (joinChar '|' (entryFields e) ++ ['>']).getLast? = some '>' then
      decodeBody (splitChar '|' (joinChar '|' (entryFields e) ++ ['>']).dropLast)
    else none)
    else none) = some e
  rw [if_pos rfl, List.getLast?_concat, if_pos rfl, List.dropLast_concat]
  rw [splitChar_joinChar '|' (entryFields e) (by simp [entryFields])
    (fun p hp => (entryFields_fieldOK e p hp).1)]
  exact decodeBody_entryFields e

theorem encodeEntry_no_nl (e : AuditEntry) : '\n' ∉ encodeEntry e := by
  intro h
  rcases List.mem_cons.mp h with h | h
  · exact absurd h (by decide)
  · rcases List.mem_append.mp h with h | h
    · rcases mem_joinChar '|' _ '\n' h with h | ⟨p, hp, hc⟩
      · exact absurd h (by decide)
      · exact (entryFields_fieldOK e p hp).2 hc
    · exact absurd h (by decide)

theorem encodeEntry_head (e : AuditEntry) : (encodeEntry e).head? = some '<' := rfl

theorem encodeEntry_getLast (e : AuditEntry) :
    (encodeEntry e).getLast? = some '>' := by
  show (('<' :: joinChar '|' (entryFields e)) ++ ['>']).getLast? = some '>'
  exact List.getLast?_concat _

theorem trimChars_encodeEntry (e : AuditEntry) :
    trimChars (encodeEntry e) = encodeEntry e := by
  apply trimChars_eq_self
  · intro ch hch
    rw [encodeEntry_head e] at hch
    cases hch
    decide
  · intro ch hch
    rw [encodeEntry_getLast e] at hch
    cases hch
    decide

theorem encodeEntry_ne_nil (e : AuditEntry) : encodeEntry e ≠ [] := by
  simp [encodeEntry]

/-! ## Audit log operations (`src/adapters/audit/json_audit_logger.rs`)

The log file is modelled as an `Option String` (`none` = absent file):
`log_event` appends the encoded entry plus a newline, `query` streams the
lines back. -/

/-- Per-character lowercase map (`str::to_lowercase`, restricted to the
ASCII case fold that the source's author strings exercise). -/
def toLowerChars (l : List Char) : List Char := l.map Char.toLower

/-- `pre` is a prefix of the first list (`str::starts_with`). -/
def listStartsWith : List Char → List Char → Bool
  | _, [] => true
  | [], _ :: _ => false
  | a :: as2, b :: bs => a = b && listStartsWith as2 bs

/-- `needle` occurs as a contiguous substring (`str::contains`). -/
def containsSub : List Char → List Char → Bool
  | [], needle => listStartsWith [] needle
  | c :: rest, needle => listStartsWith (c :: rest) needle || containsSub rest needle

/-- The author filter of `query`: the lowered filter is a substring of the
lowered author name or of the lowered email. -/
def matchesAuthor (a : String) (e : AuditEntry) : Bool :=
  containsSub (toLowerChars e.author.data) (toLowerChars a.data) ||
    (match e.email with
     | none => false
     | some em => containsSub (toLowerChars em.data) (toLowerChars a.data))

/-- The claim-side filter: the author filter passes (or is absent) and the
timestamp is `≥ since` (or `since` is absent). -/
def entryMatches (author : Option String) (since : Option Int) (e : AuditEntry) : Bool :=
  (match author with
   | none => true
   | some a => matchesAuthor a e) &&
  (match since with
   | none => true
   | some s => decide (s ≤ e.timestamp))

namespace JsonAuditLogger

/-- `JsonAuditLogger::log_event`: serialize and append one line. -/
def log_event (st : Option String) (e : AuditEntry) : Option String :=
  some ((st.getD "") ++ String.mk (encodeEntry e) ++ "\n")

/-- The file contents after logging a sequence of entries into an absent
file. -/
def writeAll (es : List AuditEntry) : Option String :=
  es.foldl log_event none

/-- The line loop of `JsonAuditLogger::query`: trim, skip blank lines, fail
on malformed entries, keep entries passing the author and since filters. -/
def queryAux (author : Option String) (since : Option Int) :
    List (List Char) → List AuditEntry → Except VaulticError (List AuditEntry)
  | [], acc => .ok acc
  | l :: rest, acc =>
    if trimChars l = [] then queryAux author since rest acc
    else
      match decodeEntry (trimChars l) with
      | none => .error (VaulticError.auditError "Malformed audit entry")
      | some e =>
        if (match author with
            | none => true
            | some a => matchesAuthor a e) then
          if (match since with
              | none => false
              | some s => decide (e.timestamp < s)) then
            queryAux author since rest acc
          else queryAux author since rest (acc ++ [e])
        else queryAux author since rest acc

/-- `JsonAuditLogger::query`: an absent file yields no entries; otherwise
the lines are streamed through the filter loop. -/
def query (author : Option String) (since : Option Int) (st : Option String) :
    Except VaulticError (List AuditEntry) :=
  match st with
  | none => .ok []
  | some content => queryAux author since (rustLinesData content.data) []

end JsonAuditLogger

/-- The raw characters `writeAll` leaves in the file. -/
def encData : List AuditEntry → List Char
  | [] => []
  | e :: t => encodeEntry e ++ '\n' :: encData t

theorem encData_eq (es : List AuditEntry) (hne : es ≠ []) :
    encData es = joinNl (es.map encodeEntry) ++ ['\n'] := by
  induction es with
  | nil => exact absurd rfl hne
  | cons e t ih =>
    cases t with
    | nil => rfl
    | cons f r =>
      show encodeEntry e ++ '\n' :: encData (f :: r) = _
      rw [ih (by simp)]
      simp only [List.map_cons]
      rw [joinNl_cons (encodeEntry e) (encodeEntry f :: r.map encodeEntry) (by simp)]
      simp [List.append_assoc]

theorem rustLinesData_encData (es : List AuditEntry) (hne : es ≠ []) :
    rustLinesData (encData es) = es.map encodeEntry := by
  rw [encData_eq es hne]
  apply rustLinesData_joinNl
  · simp [hne]
  · intro p hp
    rw [List.mem_map] at hp
    obtain ⟨e, _, he⟩ := hp
    subst he
    refine ⟨encodeEntry_no_nl e, ?_⟩
    rw [encodeEntry_getLast]
    decide

theorem foldl_log_event (es : List AuditEntry) :
    ∀ d : List Char, es.foldl JsonAuditLogger.log_event (some (String.mk d)) =
      some (String.mk (d ++ encData es)) := by
  induction es with
  | nil =>
    intro d
    show some (String.mk d) = some (String.mk (d ++ encData []))
    rw [show encData [] = [] from rfl, List.append_nil]
  | cons e t ih =>
    intro d
    show t.foldl JsonAuditLogger.log_event
      (JsonAuditLogger.log_event (some (String.mk d)) e) = _
    have hle : JsonAuditLogger.log_event (some (String.mk d)) e =
        some (String.mk (d ++ (encodeEntry e ++ ['\n']))) := by
      show some (String.mk ((d ++ encodeEntry e) ++ ['\n'])) = _
      rw [List.append_assoc]
    rw [hle, ih (d ++ (encodeEntry e ++ ['\n']))]
    congr 1
    show String.mk _ = String.mk _
    congr 1
    show (d ++ (encodeEntry e ++ ['\n'])) ++ encData t = d ++ encData (e :: t)
    rw [show encData (e :: t) = encodeEntry e ++ '\n' :: encData t from rfl]
    simp [List.append_assoc]

theorem writeAll_content (es : List AuditEntry) (hne : es ≠ []) :
    JsonAuditLogger.writeAll es = some (String.mk (encData es)) := by
  cases es with
  | nil => exact absurd rfl hne
  | cons e t =>
    show t.foldl JsonAuditLogger.log_event (JsonAuditLogger.log_event none e) = _
    have h0 : JsonAuditLogger.log_event none e =
        some (String.mk (encodeEntry e ++ ['\n'])) := rfl
    rw [h0, foldl_log_event t (encodeEntry e ++ ['\n'])]
    congr 1
    show String.mk _ = String.mk _
    congr 1
    rw [show encData (e :: t) = encodeEntry e ++ '\n' :: encData t from rfl]
    simp [List.append_assoc]

theorem queryAux_cons_entry (author : Option String) (since : Option Int)
    (e : AuditEntry) (rest : List (List Char)) (acc : List AuditEntry) :
    JsonAuditLogger.queryAux author since (encodeEntry e :: rest) acc =
      (if entryMatches author since e = true then
        JsonAuditLogger.queryAux author since rest (acc ++ [e])
      else JsonAuditLogger.queryAux author since rest acc) := by
  rw [JsonAuditLogger.queryAux]
  simp only [trimChars_encodeEntry, decodeEntry_encodeEntry]
  rw [if_neg (encodeEntry_ne_nil e)]
  cases author with
  | none =>
    rw [if_pos (show (true : Bool) = true from rfl)]
    cases since with
    | none =>
      rw [if_neg (show ¬ ((false : Bool) = true) from Bool.false_ne_true)]
      rw [if_pos (show entryMatches none none e = true from rfl)]
    | some s =>
      by_cases hts : e.timestamp < s
      · rw [if_pos (decide_eq_true hts)]
        rw [if_neg (show ¬ (entryMatches none (some s) e = true) from by
          simp only [entryMatches, Bool.true_and, decide_eq_true_eq]
          omega)]
      · rw [if_neg (show ¬ (decide (e.timestamp < s) = true) from by
          simp only [decide_eq_true_eq]; exact hts)]
        rw [if_pos (show entryMatches none (some s) e = true from by
          simp only [entryMatches, Bool.true_and, decide_eq_true_eq]
          omega)]
  | some a =>
    cases hA : matchesAuthor a e with
    | false =>
      rw [if_neg (show ¬ (matchesAuthor a e = true) from by
        rw [hA]; exact Bool.false_ne_true)]
      rw [if_neg (show ¬ (entryMatches (some a) since e = true) from by
        simp only [entryMatches, hA, Bool.false_and]
        exact Bool.false_ne_true)]
    | true =>
      rw [if_pos hA]
      cases since with
      | none =>
        rw [if_neg (show ¬ ((false : Bool) = true) from Bool.false_ne_true)]
        rw [if_pos (show entryMatches (some a) none e = true from by
          simp only [entryMatches, hA, Bool.and_true])]
      | some s =>
        by_cases hts : e.timestamp < s
        · rw [if_pos (decide_eq_true hts)]
          rw [if_neg (show ¬ (entryMatches (some a) (some s) e = true) from by
            simp only [entryMatches, hA, Bool.true_and, decide_eq_true_eq]
            omega)]
        · rw [if_neg (show ¬ (decide (e.timestamp < s) = true) from by
            simp only [decide_eq_true_eq]; exact hts)]
          rw [if_pos (show entryMatches (some a) (some s) e = true from by
            simp only [entryMatches, hA, Bool.true_and, decide_eq_true_eq]
            omega)]

theorem queryAux_map (author : Option String) (since : Option Int)
    (es : List AuditEntry) :
    ∀ acc, JsonAuditLogger.queryAux author since (es.map encodeEntry) acc =
      .ok (acc ++ es.filter (fun e => entryMatches author since e)) := by
  induction es with
  | nil =>
    intro acc
    show Except.ok acc = _
    rw [List.filter_nil, List.append_nil]
  | cons e t ih =>
    intro acc
    rw [List.map_cons, queryAux_cons_entry]
    cases hm : entryMatches author since e with
    | true =>
      rw [if_pos rfl, ih (acc ++ [e]), List.filter_cons_of_pos hm,
        List.append_assoc]
      rfl
    | false =>
      have hm' : ¬ (entryMatches author since e = true) := by
        rw [hm]; exact Bool.false_ne_true
      rw [if_neg Bool.false_ne_true, ih acc, List.filter_cons_of_neg hm']

/-- **C7**.  Audit query filter and order: after any sequence of successful
`log_event` calls into a fresh log, `query(author, since)` succeeds and
returns — in write order — exactly the entries whose lowered author name or
email has the lowered filter as a substring (when a filter is given) and
whose timestamp is `≥ since` (when `since` is given); `query(none, none)`
returns all written entries in write order. -/
theorem C7_audit_query_filter_order (entries : List AuditEntry)
    (author : Option String) (since : Option Int) :
    JsonAuditLogger.query author since (JsonAuditLogger.writeAll entries) =
      .ok (entries.filter (fun e => entryMatches author since e)) := by
  cases entries with
  | nil => rfl
  | cons e t =>
    rw [writeAll_content (e :: t) (by simp)]
    show JsonAuditLogger.queryAux author since
      (rustLinesData (String.mk (encData (e :: t))).data) [] = _
    rw [show (String.mk (encData (e :: t))).data = encData (e :: t) from rfl]
    rw [rustLinesData_encData (e :: t) (by simp)]
    rw [queryAux_map author since (e :: t) []]
    rw [List.nil_append]

/-! ## Update checksum verification (`src/adapters/updater/verifier.rs`)

`sha256_hex` delegates to the external `sha2` crate; the embedding
implements SHA-256 (FIPS 180-4) directly over byte lists, with 32-bit
words as `Nat` reduced mod `2^32`. -/

/-- 32-bit wraparound. -/
def w32 (n : Nat) : Nat := n % 4294967296

/-- Right-rotation of a 32-bit word (valid for `x < 2^32`, `k ≤ 32`). -/
def rotr32 (k x : Nat) : Nat := x / 2 ^ k + x % 2 ^ k * 2 ^ (32 - k)

/-- Logical right shift. -/
def shr32 (k x : Nat) : Nat := x / 2 ^ k

/-- Bitwise XOR of 32-bit words, one structural step per bit. -/
def bxorAux : Nat → Nat → Nat → Nat
  | 0, _, _ => 0
  | k + 1, a, b => (a + b) % 2 + 2 * bxorAux k (a / 2) (b / 2)

def bxor (a b : Nat) : Nat := bxorAux 32 a b

/-- The SHA-256 `Ch` function, bit by bit. -/
def bchAux : Nat → Nat → Nat → Nat → Nat
  | 0, _, _, _ => 0
  | k + 1, e, f, g =>
    (if e % 2 = 1 then f % 2 else g % 2) + 2 * bchAux k (e / 2) (f / 2) (g / 2)

def bch (e f g : Nat) : Nat := bchAux 32 e f g

/-- The SHA-256 `Maj` function, bit by bit. -/
def bmajAux : Nat → Nat → Nat → Nat → Nat
  | 0, _, _, _ => 0
  | k + 1, a, b, c =>
    (if 2 ≤ a % 2 + b % 2 + c % 2 then 1 else 0) +
      2 * bmajAux k (a / 2) (b / 2) (c / 2)

def bmaj (a b c : Nat) : Nat := bmajAux 32 a b c

def bigSigma0 (x : Nat) : Nat := bxor (bxor (rotr32 2 x) (rotr32 13 x)) (rotr32 22 x)

def bigSigma1 (x : Nat) : Nat := bxor (bxor (rotr32 6 x) (rotr32 11 x)) (rotr32 25 x)

def smallSigma0 (x : Nat) : Nat := bxor (bxor (rotr32 7 x) (rotr32 18 x)) (shr32 3 x)

def smallSigma1 (x : Nat) : Nat := bxor (bxor (rotr32 17 x) (rotr32 19 x)) (shr32 10 x)

/-- The 64 SHA-256 round constants (FIPS 180-4, written in decimal). -/
def sha256K : List Nat :=
  [1116352408, 1899447441, 3049323471, 3921009573,
   961987163, 1508970993, 2453635748, 2870763221,
   3624381080, 310598401, 607225278, 1426881987,
   1925078388, 2162078206, 2614888103, 3248222580,
   3835390401, 4022224774, 264347078, 604807628,
   770255983, 1249150122, 1555081692, 1996064986,
   2554220882, 2821834349, 2952996808, 3210313671,
   3336571891, 3584528711, 113926993, 338241895,
   666307205, 773529912, 1294757372, 1396182291,
   1695183700, 1986661051, 2177026350, 2456956037,
   2730485921, 2820302411, 3259730800, 3345764771,
   3516065817, 3600352804, 4094571909, 275423344,
   430227734, 506948616, 659060556, 883997877,
   958139571, 1322822218, 1537002063, 1747873779,
   1955562222, 2024104815, 2227730452, 2361852424,
   2428436474, 2756734187, 3204031479, 3329325298]

/-- The eight working variables of the compression loop. -/
structure Sha256State where
  sa : Nat
  sb : Nat
  sc : Nat
  sd : Nat
  se : Nat
  sf : Nat
  sg : Nat
  sh : Nat
deriving DecidableEq, Repr

/-- One compression round. -/
def roundStep (st : Sha256State) (k w : Nat) : Sha256State :=
  let t1 := w32 (st.sh + bigSigma1 st.se + bch st.se st.sf st.sg + k + w)
  let t2 := w32 (bigSigma0 st.sa + bmaj st.sa st.sb st.sc)
  ⟨w32 (t1 + t2), st.sa, st.sb, st.sc, w32 (st.sd + t1), st.se, st.sf, st.sg⟩

/-- Run the rounds over the zipped constants and schedule. -/
def rounds : List (Nat × Nat) → Sha256State → Sha256State
  | [], st => st
  | (k, w) :: rest, st => rounds rest (roundStep st k w)

/-- Extend the 16 loaded words to the 64-word schedule. -/
def extendW : Nat → List Nat → List Nat
  | 0, w => w
  | k + 1, w =>
    let n := w.length
    let nw := w32 (w.getD (n - 16) 0 + smallSigma0 (w.getD (n - 15) 0) +
      w.getD (n - 7) 0 + smallSigma1 (w.getD (n - 2) 0))
    extendW k (w ++ [nw])

/-- Load big-endian 32-bit words from bytes. -/
def bytesToWords : List Nat → List Nat
  | b0 :: b1 :: b2 :: b3 :: rest =>
    (((b0 * 256 + b1) * 256 + b2) * 256 + b3) :: bytesToWords rest
  | _ => []

/-- Compress one 64-byte chunk into the running state. -/
def compressChunk (st : Sha256State) (chunk : List Nat) : Sha256State :=
  let w := extendW 48 (bytesToWords chunk)
  let r := rounds (sha256K.zip w) st
  ⟨w32 (st.sa + r.sa), w32 (st.sb + r.sb), w32 (st.sc + r.sc), w32 (st.sd + r.sd),
   w32 (st.se + r.se), w32 (st.sf + r.sf), w32 (st.sg + r.sg), w32 (st.sh + r.sh)⟩

/-- Big-endian byte expansion of a number into `k` bytes. -/
def natToBytesBE : Nat → Nat → List Nat
  | 0, _ => []
  | k + 1, n => natToBytesBE k (n / 256) ++ [n % 256]

/-- SHA-256 padding: `0x80`, zeros to 56 mod 64, 8-byte bit length. -/
def padMsg (msg : List Nat) : List Nat :=
  msg ++ 0x80 :: (List.replicate ((64 + 55 - msg.length % 64) % 64) 0 ++
    natToBytesBE 8 (8 * msg.length))

/-- Cut into 64-byte chunks (fuelled; the input length is a multiple of 64). -/
def chunks64 : Nat → List Nat → List (List Nat)
  | 0, _ => []
  | k + 1, l => if l = [] then [] else l.take 64 :: chunks64 k (l.drop 64)

/-- The eight word values of the SHA-256 digest. -/
def sha256Words (data : List Nat) : List Nat :=
  let padded := padMsg data
  let cs := chunks64 (padded.length / 64 + 1) padded
  let st := cs.foldl compressChunk
    ⟨1779033703, 3144134277, 1013904242, 2773480762,
     1359893119, 2600822924, 528734635, 1541459225⟩
  [st.sa, st.sb, st.sc, st.sd, st.se, st.sf, st.sg, st.sh]

/-- Lowercase hex digit. -/
def hexDigit (n : Nat) : Char :=
  if n < 10 then Char.ofNat (48 + n) else Char.ofNat (87 + n)

/-- The `k` trailing hex digits of a number, most significant first. -/
def toHexAux : Nat → Nat → List Char
  | 0, _ => []
  | k + 1, n => toHexAux k (n / 16) ++ [hexDigit (n % 16)]

/-- Concatenation of character chunks. -/
def concatChars : List (List Char) → List Char
  | [] => []
  | l :: rest => l ++ concatChars rest

/-- `sha256_hex`: the lowercase hex digest (`format!` with `{:x}`). -/
def sha256_hex (data : List Nat) : String :=
  String.mk (concatChars ((sha256Words data).map (toHexAux 8)))

/-- `line.splitn(2, "  ")` with both parts requested: split at the first
occurrence of two consecutive spaces; `none` when there is none. -/
def splitTwoSp : List Char → Option (List Char × List Char)
  | [] => none
  | c :: rest =>
    if c = ' ' ∧ rest.head? = some ' ' then some ([], rest.tail)
    else (splitTwoSp rest).map (fun p => (c :: p.1, p.2))

/-- The `find_map` closure of `verify_sha256`: split the line on the first
double space, trim both parts, and yield the hash when the name matches. -/
def parseChecksumLine (asset_name : String) (line : String) : Option String :=
  match splitTwoSp line.data with
  | none => none
  | some (h, rest) =>
    if String.mk (trimChars rest) = asset_name then some (String.mk (trimChars h))
    else none

/-- The expected hash for the asset: first matching line wins. -/
def expectedHash (asset_name checksums_content : String) : Option String :=
  (rustLines checksums_content).findSome? (parseChecksumLine asset_name)

/-- The asset-not-found message of `verify_sha256`. -/
def notFoundMsg (asset_name : String) : String :=
  "Asset '" ++ asset_name ++
    "' not found in SHA256SUMS.txt\n\n  This release may not include a binary for your platform."

/-- The hash-mismatch message of `verify_sha256`; it embeds both hashes. -/
def mismatchMsg (computed expected : String) : String :=
  "SHA256 mismatch\n\n  Downloaded binary hash: " ++ computed ++
    "\n  Expected hash:          " ++ expected ++
    "\n\n  The download may be corrupted or tampered with."

/-- `verify_sha256` from `src/adapters/updater/verifier.rs`. -/
def verify_sha256 (binary_data : List Nat) (asset_name checksums_content : String) :
    Except VaulticError Unit :=
  match expectedHash asset_name checksums_content with
  | none => .error (.updateVerificationFailed (notFoundMsg asset_name))
  | some expected =>
    if sha256_hex binary_data = expected then .ok ()
    else .error (.updateVerificationFailed (mismatchMsg (sha256_hex binary_data) expected))

/-! ### Shape of the hex digest -/

theorem toHexAux_length (k : Nat) : ∀ n, (toHexAux k n).length = k := by
  induction k with
  | zero => intro n; rfl
  | succ k ih =>
    intro n
    show (toHexAux k (n / 16) ++ [hexDigit (n % 16)]).length = k + 1
    rw [List.length_append, ih (n / 16)]
    rfl

theorem concatChars_toHex_length (ws : List Nat) :
    (concatChars (ws.map (toHexAux 8))).length = 8 * ws.length := by
  induction ws with
  | nil => rfl
  | cons w t ih =>
    show (toHexAux 8 w ++ concatChars (t.map (toHexAux 8))).length = _
    rw [List.length_append, toHexAux_length 8 w, ih, List.length_cons]
    ring

theorem sha256_hex_length (d : List Nat) : (sha256_hex d).data.length = 64 := by
  show (concatChars ((sha256Words d).map (toHexAux 8))).length = 64
  rw [concatChars_toHex_length (sha256Words d),
    show (sha256Words d).length = 8 from rfl]

theorem mem_toHexAux (k : Nat) :
    ∀ n c, c ∈ toHexAux k n → ∃ v, v < 16 ∧ c = hexDigit v := by
  induction k with
  | zero => intro n c hc; exact absurd hc (by simp [toHexAux])
  | succ k ih =>
    intro n c hc
    rcases List.mem_append.mp hc with hc | hc
    · exact ih (n / 16) c hc
    · refine ⟨n % 16, Nat.mod_lt n (by omega), ?_⟩
      simpa using hc

theorem mem_concatChars (L : List (List Char)) (c : Char)
    (h : c ∈ concatChars L) : ∃ p ∈ L, c ∈ p := by
  induction L with
  | nil => exact absurd h (by simp [concatChars])
  | cons l rest ih =>
    rcases List.mem_append.mp h with h | h
    · exact ⟨l, by simp, h⟩
    · obtain ⟨p, hp, hc⟩ := ih h
      exact ⟨p, by simp [hp], hc⟩

theorem sha256_hex_chars (d : List Nat) (c : Char) (h : c ∈ (sha256_hex d).data) :
    (48 ≤ c.toNat ∧ c.toNat ≤ 57) ∨ (97 ≤ c.toNat ∧ c.toNat ≤ 102) := by
  obtain ⟨p, hp, hc⟩ := mem_concatChars _ c h
  rw [List.mem_map] at hp
  obtain ⟨w, _, hw⟩ := hp
  subst hw
  obtain ⟨v, hv, he⟩ := mem_toHexAux 8 w c hc
  subst he
  interval_cases v <;> simp [hexDigit]

theorem rustWS_false_of_bounds (c : Char)
    (h : (48 ≤ c.toNat ∧ c.toNat ≤ 57) ∨ (97 ≤ c.toNat ∧ c.toNat ≤ 102)) :
    rustWS c = false := by
  unfold rustWS
  simp only [Bool.or_eq_false_iff, Bool.and_eq_false_iff, beq_eq_false_iff_ne, ne_eq,
    decide_eq_false_iff_not, Nat.not_le]
  omega

theorem sha256_hex_char_facts (d : List Nat) (c : Char) (h : c ∈ (sha256_hex d).data) :
    rustWS c = false ∧ c ≠ '\n' ∧ c ≠ ' ' := by
  have hb := sha256_hex_chars d c h
  refine ⟨rustWS_false_of_bounds c hb, ?_, ?_⟩
  · intro he; subst he; revert hb; decide
  · intro he; subst he; revert hb; decide

/-! ### `findSome?` as first-match search -/

theorem findSome?_none_iff {α β : Type} (f : α → Option β) (l : List α) :
    l.findSome? f = none ↔ ∀ x ∈ l, f x = none := by
  induction l with
  | nil => simp [List.findSome?_nil]
  | cons a t ih =>
    rw [List.findSome?_cons]
    cases hfa : f a with
    | some b =>
      constructor
      · intro h; exact absurd h (by simp)
      · intro h; exact absurd (h a (by simp)) (by simp [hfa])
    | none =>
      constructor
      · intro h x hx
        rcases List.mem_cons.mp hx with hx | hx
        · exact hx ▸ hfa
        · exact (ih.mp h) x hx
      · intro h
        exact ih.mpr (fun x hx => h x (by simp [hx]))

theorem findSome?_some_iff {α β : Type} (f : α → Option β) (l : List α) (b : β) :
    l.findSome? f = some b ↔
      ∃ pre x post, l = pre ++ x :: post ∧
        (∀ y ∈ pre, f y = none) ∧ f x = some b := by
  induction l with
  | nil =>
    constructor
    · intro h; exact absurd h (by simp)
    · rintro ⟨pre, x, post, h, -, -⟩
      exact absurd h (by simp)
  | cons a t ih =>
    rw [List.findSome?_cons]
    cases hfa : f a with
    | some c =>
      constructor
      · intro h
        have hc : c = b := by simpa using h
        exact ⟨[], a, t, rfl, by simp, by rw [hfa, hc]⟩
      · rintro ⟨pre, x, post, hl, hpre, hx⟩
        cases pre with
        | nil =>
          injection hl with h1 h2
          rw [← h1, hfa] at hx
          simpa using hx
        | cons p ps =>
          injection hl with h1 h2
          have hp := hpre p (by simp)
          rw [← h1, hfa] at hp
          exact absurd hp (by simp)
    | none =>
      rw [ih]
      constructor
      · rintro ⟨pre, x, post, hl, hpre, hx⟩
        refine ⟨a :: pre, x, post, by rw [hl, List.cons_append], ?_, hx⟩
        intro y hy
        rcases List.mem_cons.mp hy with hy | hy
        · exact hy ▸ hfa
        · exact hpre y hy
      · rintro ⟨pre, x, post, hl, hpre, hx⟩
        cases pre with
        | nil =>
          injection hl with h1 h2
          rw [← h1, hfa] at hx
          exact absurd hx (by simp)
        | cons p ps =>
          injection hl with h1 h2
          exact ⟨ps, x, post, h2, fun y hy => hpre y (by simp [hy]), hx⟩

/-! ### Substring facts for the mismatch message -/

theorem listStartsWith_append (p q : List Char) :
    listStartsWith (p ++ q) p = true := by
  induction p with
  | nil => cases q <;> rfl
  | cons c t ih =>
    show (decide (c = c) && listStartsWith (t ++ q) t) = true
    rw [ih, decide_eq_true rfl]
    rfl

theorem containsSub_append_mid (pre mid post : List Char) :
    containsSub (pre ++ (mid ++ post)) mid = true := by
  induction pre with
  | nil =>
    cases mid with
    | nil =>
      cases post with
      | nil => rfl
      | cons c r => rfl
    | cons m ms =>
      show (listStartsWith ((m :: ms) ++ post) (m :: ms) ||
        containsSub (ms ++ post) (m :: ms)) = true
      rw [listStartsWith_append]
      rfl
  | cons c p ih =>
    show (listStartsWith ((c :: p) ++ (mid ++ post)) mid ||
      containsSub (p ++ (mid ++ post)) mid) = true
    rw [ih, Bool.or_true]

theorem mismatchMsg_contains (computed expected : String) :
    containsSub (mismatchMsg computed expected).data computed.data = true ∧
    containsSub (mismatchMsg computed expected).data expected.data = true := by
  have hd : (mismatchMsg computed expected).data =
      "SHA256 mismatch\n\n  Downloaded binary hash: ".data ++ (computed.data ++
        ("\n  Expected hash:          ".data ++ (expected.data ++
          "\n\n  The download may be corrupted or tampered with.".data))) := by
    simp [mismatchMsg, String.data_append, List.append_assoc]
  constructor
  · rw [hd]
    exact containsSub_append_mid _ _ _
  · rw [hd]
    rw [show "SHA256 mismatch\n\n  Downloaded binary hash: ".data ++ (computed.data ++
        ("\n  Expected hash:          ".data ++ (expected.data ++
          "\n\n  The download may be corrupted or tampered with.".data))) =
      ("SHA256 mismatch\n\n  Downloaded binary hash: ".data ++ (computed.data ++
        "\n  Expected hash:          ".data)) ++ (expected.data ++
          "\n\n  The download may be corrupted or tampered with.".data) from by
      simp [List.append_assoc]]
    exact containsSub_append_mid _ _ _

/-! ### Line structure of checksum files -/

theorem rustLinesData_cons_nl (a rest : List Char) (h : '\n' ∉ a) :
    rustLinesData (a ++ '\n' :: rest) = stripCR a :: rustLinesData rest := by
  unfold rustLinesData
  rw [splitNl_append_nl a rest h]
  obtain ⟨p, P, hP⟩ : ∃ p P, splitNl rest = p :: P := by
    cases hs : splitNl rest with
    | nil => exact absurd hs (splitNl_ne_nil rest)
    | cons p P => exact ⟨p, P, rfl⟩
  rw [hP]
  simp only [List.getLast?_cons_cons, List.dropLast_cons₂, List.map_cons,
    List.cons_append]
  cases hg : (p :: P).getLast? with
  | none => rfl
  | some last =>
    cases last with
    | nil => rfl
    | cons c cs => rfl

theorem rustLinesData_single (l : List Char) (h : '\n' ∉ l) (hne : l ≠ []) :
    rustLinesData l = [l] := by
  unfold rustLinesData
  rw [splitNl_no_nl l h]
  cases l with
  | nil => exact absurd rfl hne
  | cons c cs => rfl

theorem splitTwoSp_append (H rest : List Char) (h : ' ' ∉ H) :
    splitTwoSp (H ++ ' ' :: ' ' :: rest) = some (H, rest) := by
  induction H with
  | nil =>
    show (if ' ' = ' ' ∧ (' ' :: rest).head? = some ' ' then some ([], (' ' :: rest).tail)
      else (splitTwoSp (' ' :: rest)).map (fun p => (' ' :: p.1, p.2))) = some ([], rest)
    rw [if_pos ⟨rfl, rfl⟩]
    rfl
  | cons c t ih =>
    have hc : ¬ c = ' ' := fun hh => h (by simp [hh])
    have ht : ' ' ∉ t := fun hm => h (by simp [hm])
    show (if c = ' ' ∧ (t ++ ' ' :: ' ' :: rest).head? = some ' ' then
        some ([], (t ++ ' ' :: ' ' :: rest).tail)
      else (splitTwoSp (t ++ ' ' :: ' ' :: rest)).map (fun p => (c :: p.1, p.2))) =
      some (c :: t, rest)
    rw [if_neg (fun hh => hc hh.1), ih ht]
    rfl

theorem headOK_of_all (l : List Char) (h : ∀ c ∈ l, rustWS c = false) : headOK l := by
  intro ch hch
  cases l with
  | nil => simp at hch
  | cons c t =>
    have hcc : c = ch := by simpa using hch
    exact h ch (by rw [← hcc]; simp)

theorem lastOK_of_all (l : List Char) (h : ∀ c ∈ l, rustWS c = false) : lastOK l :=
  fun ch hch => h ch (List.mem_of_getLast?_eq_some hch)

theorem parseChecksumLine_hash (H : List Char) (hsp : ' ' ∉ H)
    (hws : ∀ c ∈ H, rustWS c = false) :
    parseChecksumLine "a" (String.mk (H ++ [' ', ' ', 'a'])) = some (String.mk H) := by
  unfold parseChecksumLine
  rw [show (String.mk (H ++ [' ', ' ', 'a'])).data = H ++ ' ' :: ' ' :: ['a'] from rfl]
  rw [splitTwoSp_append H ['a'] hsp]
  show (if String.mk (trimChars ['a']) = "a" then some (String.mk (trimChars H))
    else none) = some (String.mk H)
  rw [if_pos (by decide), trimChars_eq_self H (headOK_of_all H hws) (lastOK_of_all H hws)]

theorem verify_sha256_none (d : List Nat) (name chk : String)
    (h : expectedHash name chk = none) :
    verify_sha256 d name chk = .error (.updateVerificationFailed (notFoundMsg name)) := by
  unfold verify_sha256
  rw [h]

theorem verify_sha256_some (d : List Nat) (name chk exp : String)
    (h : expectedHash name chk = some exp) :
    verify_sha256 d name chk =
      (if sha256_hex d = exp then .ok ()
       else .error (.updateVerificationFailed (mismatchMsg (sha256_hex d) exp))) := by
  unfold verify_sha256
  rw [h]

/-- The checksum file of the counterexample: a wrong-hash line for asset
`a` first, then a correct-hash line for the same asset. -/
def chkC8 : String := "X  a\n" ++ sha256_hex [] ++ "  a"

theorem rustLines_chkC8 :
    rustLines chkC8 =
      ["X  a", String.mk ((sha256_hex []).data ++ [' ', ' ', 'a'])] := by
  unfold rustLines
  have hdata : chkC8.data =
      ['X', ' ', ' ', 'a'] ++ '\n' :: ((sha256_hex []).data ++ [' ', ' ', 'a']) := by
    show (("X  a\n" ++ sha256_hex []) ++ "  a").data = _
    rw [String.data_append, String.data_append, List.append_assoc]
    rfl
  have hnl : '\n' ∉ (sha256_hex []).data ++ [' ', ' ', 'a'] := by
    intro hm
    rcases List.mem_append.mp hm with hm | hm
    · exact (sha256_hex_char_facts [] '\n' hm).2.1 rfl
    · simp at hm
  rw [hdata, rustLinesData_cons_nl _ _ (by decide),
    rustLinesData_single _ hnl (by simp)]
  rfl

/-- **C8** (counterexample).  The checksum file `chkC8` contains a line
whose name is the asset and whose hash is exactly the computed digest,
yet `verify_sha256` fails with a SHA256-mismatch error, because the first
line whose name matches carries a different hash: the claimed
"Ok iff some line matches name and hash" law is false. -/
theorem C8_counterexample :
    (∃ line ∈ rustLines chkC8,
      parseChecksumLine "a" line = some (sha256_hex [])) ∧
    verify_sha256 [] "a" chkC8 =
      .error (.updateVerificationFailed (mismatchMsg (sha256_hex []) "X")) := by
  have hexp : expectedHash "a" chkC8 = some "X" := by
    unfold expectedHash
    rw [rustLines_chkC8, List.findSome?_cons,
      show parseChecksumLine "a" "X  a" = some "X" from by decide]
  have hneq : ¬ (sha256_hex [] = "X") := by
    intro h
    have hlen := sha256_hex_length []
    rw [h] at hlen
    exact absurd hlen (by decide)
  constructor
  · refine ⟨String.mk ((sha256_hex []).data ++ [' ', ' ', 'a']), ?_, ?_⟩
    · rw [rustLines_chkC8]
      simp
    · exact parseChecksumLine_hash (sha256_hex []).data
        (fun hm => (sha256_hex_char_facts [] ' ' hm).2.2 rfl)
        (fun c hc => (sha256_hex_char_facts [] c hc).1)
  · rw [verify_sha256_some [] "a" chkC8 "X" hexp, if_neg hneq]

/-- **C8** (amended).  First-match checksum verification: `verify_sha256`
returns `Ok` iff the FIRST line of the checksum file that parses as
`hash``(two spaces)``name` with trimmed name equal to the asset name
carries (after trimming) exactly the computed digest; if no line's name
matches, it fails with the asset-not-found `UpdateVerificationFailed`,
and if the first matching line's hash differs from the computed one it
fails with the SHA256-mismatch `UpdateVerificationFailed` whose message
contains both hashes. -/
theorem C8_checksum_first_match (d : List Nat) (name chk : String) :
    (verify_sha256 d name chk = .ok () ↔
      (∃ pre line post, rustLines chk = pre ++ line :: post ∧
        (∀ l ∈ pre, parseChecksumLine name l = none) ∧
        parseChecksumLine name line = some (sha256_hex d))) ∧
    ((∀ l ∈ rustLines chk, parseChecksumLine name l = none) →
      verify_sha256 d name chk =
        .error (.updateVerificationFailed (notFoundMsg name))) ∧
    (∀ exp, expectedHash name chk = some exp → ¬ exp = sha256_hex d →
      verify_sha256 d name chk =
        .error (.updateVerificationFailed (mismatchMsg (sha256_hex d) exp)) ∧
      containsSub (mismatchMsg (sha256_hex d) exp).data (sha256_hex d).data = true ∧
      containsSub (mismatchMsg (sha256_hex d) exp).data exp.data = true) := by
  refine ⟨?_, ?_, ?_⟩
  · cases h : expectedHash name chk with
    | none =>
      rw [verify_sha256_none d name chk h]
      constructor
      · intro hc; exact absurd hc (by simp)
      · rintro ⟨pre, line, post, hl, hpre, hline⟩
        have h2 : expectedHash name chk = some (sha256_hex d) :=
          (findSome?_some_iff _ _ _).mpr ⟨pre, line, post, hl, hpre, hline⟩
        rw [h] at h2
        exact absurd h2 (by simp)
    | some exp =>
      rw [verify_sha256_some d name chk exp h]
      by_cases he : sha256_hex d = exp
      · rw [if_pos he]
        constructor
        · intro _
          have h2 : expectedHash name chk = some (sha256_hex d) := by rw [h, he]
          exact (findSome?_some_iff _ _ _).mp h2
        · intro _; rfl
      · rw [if_neg he]
        constructor
        · intro hc; exact absurd hc (by simp)
        · rintro ⟨pre, line, post, hl, hpre, hline⟩
          have h2 : expectedHash name chk = some (sha256_hex d) :=
            (findSome?_some_iff _ _ _).mpr ⟨pre, line, post, hl, hpre, hline⟩
          rw [h] at h2
          have h3 : exp = sha256_hex d := by simpa using h2
          exact absurd h3.symm he
  · intro hall
    exact verify_sha256_none d name chk ((findSome?_none_iff _ _).mpr hall)
  · intro exp h hne
    refine ⟨?_, (mismatchMsg_contains (sha256_hex d) exp).1,
      (mismatchMsg_contains (sha256_hex d) exp).2⟩
    rw [verify_sha256_some d name chk exp h, if_neg (fun hh => hne hh.symm)]

/-- Witness: on a checksum file with no matching asset line, the amended
theorem yields the asset-not-found error. -/
theorem C8_checksum_first_match_witness :
    verify_sha256 [] "a" "b  c" =
      .error (.updateVerificationFailed (notFoundMsg "a")) :=
  (C8_checksum_first_match [] "a" "b  c").2.1 (by decide)

end Vaultic

